import Mathlib

/-!
Verification of the microphone-location system against its design spec.

This file gives a shallow embedding, in Lean 4, of the parts of the
repository that the spec's testable claims are about:

* `src/node/dsp.py` — `RingBuffer`, `NoiseTracker`, `DirectionEstimator`,
  `FeatureExtractor` (the node-side detection pipeline);
* `src/node/packets.py` — `Packet.to_payload` (the wire encoder);
* `src/server/fusion_receiver.py` — `parse_packet` and
  `FusionReceiverProtocol.datagram_received` (the wire decoder);
* `src/server/state_store.py` — `Frame`, `NodeState`, `FrameStore`;
* `src/server/localization.py` — `_grid_points`, `_grid_search`,
  `_point_error`, `_refine`, `LocalizationEngine._localize`.

Modelling conventions: machine floats are modelled as exact numbers
(`ℚ` or `ℝ` where square roots occur); Python byte strings are lists of
naturals below 256; Python dicts are insertion-ordered association
lists; numeric JSON leaves are modelled as exact integers (the codec
transports numbers opaquely, and Python's `json` round-trips numeric
literals).  Each definition follows the corresponding Python source
line by line; deviations are noted in doc comments.
-/

/-! ### node/dsp.py : RingBuffer

The numpy buffer is `(channels × size)`; every operation acts on each
channel row identically and independently, so the model tracks one
channel row of samples (`List Int`). -/

structure RingBuffer where
  buffer : List Int
  size : Nat
  pos : Nat
  filled : Bool
deriving DecidableEq, Repr

/-- Constructor `RingBuffer.__init__`: an all-zeros row, cursor at 0,
not yet filled. -/
def RingBuffer.init (size : Nat) : RingBuffer :=
  { buffer := List.replicate size 0, size := size, pos := 0, filled := false }

/-- Numpy slice assignment `l[start:start+len(s)] = s` on a row. -/
def setSlice (l : List Int) (start : Nat) (s : List Int) : List Int :=
  l.take start ++ s ++ l.drop (start + s.length)

/-- `RingBuffer.append` (dsp.py lines 35-51).  A block of `n ≥ size`
samples replaces the whole buffer with the block's tail; otherwise the
block is written at the cursor, wrapping once if it crosses the end.
Note the source marks the buffer `filled` after any nonempty append
(`if n: self.filled = True`), not only once `size` samples have been
written. -/
def RingBuffer.append (rb : RingBuffer) (samples : List Int) : RingBuffer :=
  let n := samples.length
  if rb.size ≤ n then
    { rb with buffer := samples.drop (n - rb.size), pos := 0, filled := true }
  else
    let buf :=
      if rb.pos + n < rb.size then
        setSlice rb.buffer rb.pos samples
      else
        let first := rb.size - rb.pos
        setSlice (setSlice rb.buffer rb.pos (samples.take first)) 0 (samples.drop first)
    { rb with
      buffer := buf
      pos := (rb.pos + n) % rb.size
      filled := if n ≠ 0 then true else rb.filled }

/-- `RingBuffer.view` (dsp.py lines 53-58): the written prefix while not
`filled`, otherwise the buffer rotated so index `pos` comes first
(`idx = (arange(size) + pos) % size`). -/
def RingBuffer.view (rb : RingBuffer) : List Int :=
  if !rb.filled then rb.buffer.take rb.pos
  else (List.range rb.size).map (fun i => rb.buffer.getD ((i + rb.pos) % rb.size) 0)

/-- C1.  The spec claims `len(view()) == min(total_samples_appended, capacity)`
("not full until the first fill").  The code instead marks the buffer
filled after any nonempty append, so with capacity 2 and one appended
sample `5`, `view()` returns the whole physical buffer `[0, 5]` — two
samples, one of which (the leading zero) was never appended — instead of
the claimed `min(1, 2) = 1` most recent samples. -/
theorem C1_view_full_after_single_append :
    RingBuffer.view (RingBuffer.append (RingBuffer.init 2) [5]) = [0, 5] ∧
    ¬ (RingBuffer.view (RingBuffer.append (RingBuffer.init 2) [5])).length = min 1 2 := by
  decide

/-! ### node/dsp.py : NoiseTracker, DirectionEstimator, goertzel, FeatureExtractor

Sample values and derived quantities are modelled over `ℝ` (the Python
code computes with machine floats; `np.linalg.norm` and the RMS take
square roots).  A channel-indexed family is a function out of `Fin n`.
Boolean flags computed by real comparisons are modelled as `Prop`. -/

open scoped Classical

/-- A 3-vector, as produced by `DirectionEstimator` (`np.zeros(3)` etc.). -/
abbrev Vec3 : Type := ℝ × ℝ × ℝ

/-- `np.linalg.norm` of a 3-vector. -/
noncomputable def norm3 (v : Vec3) : ℝ :=
  Real.sqrt (v.1 ^ 2 + v.2.1 ^ 2 + v.2.2 ^ 2)

/-- Scalar multiple of a 3-vector (`weights[:, None] * self.vecs` rows). -/
def smul3 (c : ℝ) (v : Vec3) : Vec3 := (c * v.1, c * v.2.1, c * v.2.2)

/-- Componentwise division of a 3-vector by a scalar (`direction / norm`). -/
noncomputable def div3 (v : Vec3) (c : ℝ) : Vec3 := (v.1 / c, v.2.1 / c, v.2.2 / c)

/-- `NoiseTracker.update` (dsp.py lines 67-69): the level vector is left
unchanged while a signal is present, otherwise moved toward `rms` by the
exponential rule `level = (1-α)·level + α·rms`. -/
noncomputable def noiseUpdate (alpha : ℝ) (level rms : Fin n → ℝ) (present : Prop) :
    Fin n → ℝ :=
  if present then level else fun c => (1 - alpha) * level c + alpha * rms c

/-- `DirectionEstimator.__init__` (dsp.py lines 73-77): each geometry row
is divided by its norm, with zero norms replaced by 1 before dividing. -/
noncomputable def dirInit (raw : Fin n → Vec3) : Fin n → Vec3 :=
  fun i => div3 (raw i) (if norm3 (raw i) = 0 then 1 else norm3 (raw i))

/-- `DirectionEstimator.estimate` (dsp.py lines 79-87): clamp the weights
at 0; all-zero weights give `(zeros(3), 0.0)`; otherwise normalize the
weighted sum of geometry rows, returning `(zeros(3), 0.0)` when that sum
has zero magnitude, and confidence `min(Σ weights, 1.0)` otherwise. -/
noncomputable def estimate (vecs : Fin n → Vec3) (weights : Fin n → ℝ) : Vec3 × ℝ :=
  let wc : Fin n → ℝ := fun i => max (weights i) 0
  if ∀ i, wc i = 0 then ((0, 0, 0), 0)
  else
    let direction := ∑ i, smul3 (wc i) (vecs i)
    let nrm := norm3 direction
    if nrm = 0 then ((0, 0, 0), 0)
    else (div3 direction nrm, min (∑ i, wc i) 1)

/-- `goertzel` (dsp.py lines 90-104), the single-bin DFT recurrence.  The
loop state is the pair `(q1, q2)`; Python's `int(0.5 + x)` truncation is
the floor for the nonnegative arguments in use. -/
noncomputable def goertzel (samples : List ℝ) (targetFreq sampleRate : ℝ) : ℝ :=
  let N : ℝ := samples.length
  let k : ℤ := ⌊0.5 + N * targetFreq / sampleRate⌋
  let omega : ℝ := 2 * Real.pi * k / N
  let sine := Real.sin omega
  let cosine := Real.cos omega
  let coeff := 2 * cosine
  let q := samples.foldl (fun (q : ℝ × ℝ) x => (coeff * q.1 - q.2 + x, q.1)) (0, 0)
  Real.sqrt ((q.1 - q.2 * cosine) ^ 2 + (q.2 * sine) ^ 2) / N

/-- `np.mean` of a row. -/
noncomputable def listMean (l : List ℝ) : ℝ := l.sum / l.length

/-- `np.max` of a row (0 on the empty row, which the source guards
against by raising before any row is empty). -/
def listMax (l : List ℝ) : ℝ := l.foldr max 0

/-- The mutable state `FeatureExtractor` threads between frame emissions:
the noise-tracker level vector and the `last_present` flag.  Channels
are `Fin (n+1)` so that channel 0 (the designated Goertzel channel)
always exists. -/
structure FEState (n : Nat) where
  noise : Fin (n + 1) → ℝ
  lastPresent : Prop

/-- The per-hop frame assembled by `FeatureExtractor._emit_frame`
(dsp.py lines 155-165).  The wall-clock `timestamp` field is outside the
model. -/
structure FrameResult (n : Nat) where
  mic_rms : Fin (n + 1) → ℝ
  crest : Fin (n + 1) → ℝ
  bandpower : ℝ × ℝ
  total_energy : ℝ
  present : Prop
  dir_local : Vec3
  dir_conf : ℝ
  noise_rms : Fin (n + 1) → ℝ

/-- `FeatureExtractor._emit_frame` (dsp.py lines 137-168) on the current
window contents (`self.buffer.view()` is passed in as `window`; the
empty-window case raises in the source and yields no frame).  Returns
the updated extractor state and the emitted frame.  The noise tracker
uses its default `α = 0.01`. -/
noncomputable def emitFrame (sampleRate : ℝ) (vecs : Fin (n + 1) → Vec3)
    (st : FEState n) (window : Fin (n + 1) → List ℝ) :
    FEState n × FrameResult n :=
  let rms : Fin (n + 1) → ℝ := fun c => Real.sqrt (listMean ((window c).map (· ^ 2)))
  let peak : Fin (n + 1) → ℝ := fun c => listMax ((window c).map (fun x => |x|))
  let crest : Fin (n + 1) → ℝ := fun c => peak c / (rms c + 1 / 1000000)
  let band120 := goertzel (window 0) 120 sampleRate
  let band240 := goertzel (window 0) 240 sampleRate
  let totalEnergy := ∑ c, rms c
  let noise := st.noise
  let signal : Fin (n + 1) → ℝ := fun c => max (rms c - noise c) 0
  let noiseSum := (∑ c, noise c) + 1 / 1000000
  let hi := noiseSum * 3.5
  let lo := noiseSum * 3.0
  let present : Prop := totalEnergy > hi ∨ (st.lastPresent ∧ totalEnergy > lo)
  let noise' := noiseUpdate (1 / 100) noise rms present
  let dc := estimate vecs signal
  let frame : FrameResult n :=
    { mic_rms := rms
      crest := crest
      bandpower := (band120, band240)
      total_energy := totalEnergy
      present := present
      dir_local := dc.1
      dir_conf := dc.2
      noise_rms := noise' }
  ({ noise := noise', lastPresent := present }, frame)

/-- Iterated frame emission: the source's `push` loop calls
`_emit_frame` once per whole hop of pending samples; `emitSeq` runs the
emissions for the successive window contents `ws`, threading the
extractor state. -/
noncomputable def emitSeq (sampleRate : ℝ) (vecs : Fin (n + 1) → Vec3)
    (st : FEState n) : List (Fin (n + 1) → List ℝ) → FEState n × List (FrameResult n)
  | [] => (st, [])
  | w :: ws =>
    let sf := emitFrame sampleRate vecs st w
    let rest := emitSeq sampleRate vecs sf.1 ws
    (rest.1, sf.2 :: rest.2)

/-! ### Byte-level JSON codec and CRC32

`Packet.to_payload` serializes a flat dict with `json.dumps(...,
separators=(",", ":"))` and appends `b"|" + crc32-hex`; the receiver
splits and re-parses with `json.loads`.  Byte strings are `List Nat`
(each element < 256).  The JSON value model is stratified exactly as
the payloads this system produces and consumes: leaves are exact
integers, booleans, `null`, escape-free strings, and arrays of numbers;
one level of nested object carries the `extra` dict.  `json` escapes
and non-ASCII text are outside the model (the well-formedness
predicates below restrict strings accordingly). -/

/-- ASCII byte string of a Lean string literal (all keys in use are ASCII). -/
def bsOf (s : String) : List Nat := s.data.map Char.toNat

/-- Decimal digit bytes of a natural number, most significant first.
The structural fuel makes the definition kernel-reducible; `natBytes`
supplies sufficient fuel. -/
def natBytesAux : Nat → Nat → List Nat
  | 0, _ => []
  | fuel + 1, m => if m < 10 then [48 + m] else natBytesAux fuel (m / 10) ++ [48 + m % 10]

/-- Decimal digit bytes of a natural number (`repr` of a Python int ≥ 0). -/
def natBytes (m : Nat) : List Nat := natBytesAux (m + 1) m

/-- Serialization of a Python int (`json.dumps` of a number). -/
def encInt (n : Int) : List Nat :=
  if n < 0 then 45 :: natBytes n.natAbs else natBytes n.toNat

/-- Lists of byte strings joined by a separator (`json.dumps` uses the
compact separators `(",", ":")`). -/
def joinSep (sep : List Nat) : List (List Nat) → List Nat
  | [] => []
  | [x] => x
  | x :: y :: xs => x ++ sep ++ joinSep sep (y :: xs)

/-- JSON leaf values occurring in this system's payloads. -/
inductive JAtom where
  | jint (n : Int)
  | jbool (b : Bool)
  | jnull
  | jstr (s : List Nat)
  | jarr (xs : List Int)
deriving DecidableEq, Repr

/-- A payload value: a leaf, or the one-level nested object that the
`extra` field carries. -/
inductive JVal where
  | atom (a : JAtom)
  | jobj (kvs : List (List Nat × JAtom))
deriving DecidableEq, Repr

/-- `json.dumps` of a leaf. -/
def encAtom : JAtom → List Nat
  | .jint n => encInt n
  | .jbool true => bsOf "true"
  | .jbool false => bsOf "false"
  | .jnull => bsOf "null"
  | .jstr s => 34 :: s ++ [34]
  | .jarr xs => 91 :: joinSep [44] (xs.map encInt) ++ [93]

/-- `json.dumps` of one `"key":atom` binding. -/
def encKVA (kv : List Nat × JAtom) : List Nat :=
  34 :: kv.1 ++ [34] ++ 58 :: encAtom kv.2

/-- `json.dumps` of a payload value (125 and 123 are the brace bytes). -/
def encVal : JVal → List Nat
  | .atom a => encAtom a
  | .jobj kvs => 123 :: joinSep [44] (kvs.map encKVA) ++ [125]

/-- `json.dumps` of one `"key":value` binding of the top-level payload. -/
def encKV (kv : List Nat × JVal) : List Nat :=
  34 :: kv.1 ++ [34] ++ 58 :: encVal kv.2

/-- `json.dumps(payload, separators=(",", ":")).encode("utf-8")` for the
top-level flat payload dict. -/
def encTop (kvs : List (List Nat × JVal)) : List Nat :=
  123 :: joinSep [44] (kvs.map encKV) ++ [125]

/-- Bytes allowed inside a modelled JSON string: printable ASCII with no
quote and no backslash (anything else would be escaped by `json.dumps`). -/
def okStrByte (b : Nat) : Prop := 32 ≤ b ∧ b < 127 ∧ b ≠ 34 ∧ b ≠ 92

instance (b : Nat) : Decidable (okStrByte b) := by
  unfold okStrByte; infer_instance

/-- A modelled JSON string/key: all its bytes are escape-free ASCII. -/
def wfStr (s : List Nat) : Prop := ∀ b ∈ s, okStrByte b

instance (s : List Nat) : Decidable (wfStr s) := by
  unfold wfStr; infer_instance

/-- Well-formedness of a leaf: any string content is escape-free. -/
def wfAtom : JAtom → Prop
  | .jstr s => wfStr s
  | _ => True

instance (a : JAtom) : Decidable (wfAtom a) := by
  unfold wfAtom; cases a <;> infer_instance

/-- Well-formedness of a value: keys and strings are escape-free. -/
def wfVal : JVal → Prop
  | .atom a => wfAtom a
  | .jobj kvs => ∀ kv ∈ kvs, wfStr kv.1 ∧ wfAtom kv.2

instance (v : JVal) : Decidable (wfVal v) := by
  unfold wfVal; cases v <;> infer_instance

/-! #### CRC32 (zlib polynomial), as computed by `binascii.crc32` -/

/-- The reflected CRC-32 polynomial. -/
def crcPoly : Nat := 0xEDB88320

/-- One bit-round of the reflected CRC-32: shift right, conditionally
xor the polynomial. -/
def crcRound (c : Nat) : Nat :=
  (c >>> 1) ^^^ (if c % 2 = 1 then crcPoly else 0)

/-- Fold one data byte into the CRC state (xor, then 8 bit-rounds). -/
def crcByte (c b : Nat) : Nat := crcRound^[8] (c ^^^ b)

/-- `binascii.crc32(data) & 0xFFFFFFFF`. -/
def crc32 (data : List Nat) : Nat :=
  (data.foldl crcByte 0xFFFFFFFF) ^^^ 0xFFFFFFFF

/-- One lowercase hex digit byte. -/
def hexDigit (x : Nat) : Nat := if x < 10 then 48 + x else 87 + x

/-- The 8 lowercase hex digit bytes of `f"{x:08x}"` for `x < 2^32`. -/
def hexBytes (x : Nat) : List Nat :=
  [hexDigit ((x >>> 28) % 16), hexDigit ((x >>> 24) % 16),
   hexDigit ((x >>> 20) % 16), hexDigit ((x >>> 16) % 16),
   hexDigit ((x >>> 12) % 16), hexDigit ((x >>> 8) % 16),
   hexDigit ((x >>> 4) % 16), hexDigit (x % 16)]

/-! #### node/packets.py : Packet -/

/-- The `Packet` dataclass (packets.py lines 11-25).  Real-valued fields
are exact numbers; `extra` is the optional telemetry dict. -/
structure Packet where
  node_id : Int
  seq : Int
  ts_us : Int
  present : Bool
  mic_rms : List Int
  noise_rms : List Int
  crest : List Int
  bandpower : List Int
  dir_local : List Int
  dir_conf : Int
  supply_v : Int
  temp_c : Int
  extra : Option (List (List Nat × JAtom))
deriving DecidableEq, Repr

/-- `dataclasses.asdict(self)`: the 13 fields in declaration order, the
nested `extra` dict converted in place (or `null` for `None`). -/
def asdictPacket (p : Packet) : List (List Nat × JVal) :=
  [(bsOf "node_id", .atom (.jint p.node_id)),
   (bsOf "seq", .atom (.jint p.seq)),
   (bsOf "ts_us", .atom (.jint p.ts_us)),
   (bsOf "present", .atom (.jbool p.present)),
   (bsOf "mic_rms", .atom (.jarr p.mic_rms)),
   (bsOf "noise_rms", .atom (.jarr p.noise_rms)),
   (bsOf "crest", .atom (.jarr p.crest)),
   (bsOf "bandpower", .atom (.jarr p.bandpower)),
   (bsOf "dir_local", .atom (.jarr p.dir_local)),
   (bsOf "dir_conf", .atom (.jint p.dir_conf)),
   (bsOf "supply_v", .atom (.jint p.supply_v)),
   (bsOf "temp_c", .atom (.jint p.temp_c)),
   (bsOf "extra", match p.extra with
     | none => .atom .jnull
     | some kvs => .jobj kvs)]

/-- Python `dict.update`: an existing key keeps its position and takes
the new value; a fresh key is appended in iteration order. -/
def dictUpdate (d upd : List (List Nat × JVal)) : List (List Nat × JVal) :=
  upd.foldl (fun acc kv =>
    if acc.any (fun e => e.1 = kv.1) then
      acc.map (fun e => if e.1 = kv.1 then (e.1, kv.2) else e)
    else acc ++ [kv]) d

/-- The flat dict serialized by `Packet.to_payload` (packets.py lines
28-30): `asdict(self)`, then `payload.update(self.extra)` when `extra`
is truthy (neither `None` nor empty). -/
def mergedPayload (p : Packet) : List (List Nat × JVal) :=
  match p.extra with
  | none => asdictPacket p
  | some kvs =>
    if kvs = [] then asdictPacket p
    else dictUpdate (asdictPacket p) (kvs.map (fun kv => (kv.1, JVal.atom kv.2)))

/-- `Packet.to_payload` (packets.py lines 27-33): serialized payload
bytes, the `0x7C` separator, then 8 lowercase hex digits of the CRC32 of
exactly the serialized payload bytes. -/
def toPayload (p : Packet) : List Nat :=
  let payloadBytes := encTop (mergedPayload p)
  payloadBytes ++ 124 :: hexBytes (crc32 payloadBytes)

/-! #### The decoder: `json.loads` on the modelled payload grammar

Recursive-descent over the byte list.  Fuel keeps every definition
structural (and kernel-reducible); callers pass the input length, which
is always sufficient since every recursive call consumes at least one
byte first.  Python's `json.loads` collapses duplicate keys
(last-value-wins); the payloads produced by the encoder have no
duplicate keys, and the last-wins lookup `dlookup` below reproduces the
dict semantics the receiver sees. -/

/-- Is `b` an ASCII decimal digit byte? -/
def isDigitByte (b : Nat) : Bool := 48 ≤ b && b ≤ 57

/-- Parse a nonempty run of decimal digits into its value. -/
def parseDigits (l : List Nat) : Option (Nat × List Nat) :=
  let ds := l.takeWhile isDigitByte
  if ds.isEmpty then none
  else some (ds.foldl (fun acc b => 10 * acc + (b - 48)) 0, l.dropWhile isDigitByte)

/-- Parse a JSON integer (optional leading minus sign). -/
def parseInt (l : List Nat) : Option (Int × List Nat) :=
  match l with
  | 45 :: rest => (parseDigits rest).map (fun p => (-(p.1 : Int), p.2))
  | _ => (parseDigits l).map (fun p => ((p.1 : Int), p.2))

/-- Parse a JSON string with no escapes: a quote, content bytes, a quote. -/
def parseStrBytes (l : List Nat) : Option (List Nat × List Nat) :=
  match l with
  | 34 :: rest =>
    match rest.dropWhile (fun b => b != 34) with
    | 34 :: tail => some (rest.takeWhile (fun b => b != 34), tail)
    | _ => none
  | _ => none

/-- Parse the comma-separated items of a nonempty JSON array of numbers,
up to and including the closing bracket. -/
def parseArrItems : Nat → List Nat → Option (List Int × List Nat)
  | 0, _ => none
  | fuel + 1, l =>
    match parseInt l with
    | none => none
    | some (x, rest) =>
      match rest with
      | 44 :: rest2 => (parseArrItems fuel rest2).map (fun p => (x :: p.1, p.2))
      | 93 :: rest2 => some ([x], rest2)
      | _ => none

/-- Parse a JSON array of numbers. -/
def parseArr (l : List Nat) : Option (List Int × List Nat) :=
  match l with
  | 91 :: 93 :: rest => some ([], rest)
  | 91 :: rest => parseArrItems rest.length rest
  | _ => none

/-- Parse a JSON leaf (dispatch on the first byte; `t`, `f`, `n` start
the literals `true`, `false`, `null`). -/
def parseAtom (l : List Nat) : Option (JAtom × List Nat) :=
  match l with
  | 34 :: _ => (parseStrBytes l).map (fun p => (.jstr p.1, p.2))
  | 91 :: _ => (parseArr l).map (fun p => (.jarr p.1, p.2))
  | 116 :: 114 :: 117 :: 101 :: rest => some (.jbool true, rest)
  | 102 :: 97 :: 108 :: 115 :: 101 :: rest => some (.jbool false, rest)
  | 110 :: 117 :: 108 :: 108 :: rest => some (.jnull, rest)
  | _ => (parseInt l).map (fun p => (.jint p.1, p.2))

/-- Parse the bindings of a nonempty object whose values are leaves,
up to and including the closing brace. -/
def parseObjItems : Nat → List Nat → Option (List (List Nat × JAtom) × List Nat)
  | 0, _ => none
  | fuel + 1, l =>
    match parseStrBytes l with
    | none => none
    | some (k, rest) =>
      match rest with
      | 58 :: rest2 =>
        match parseAtom rest2 with
        | none => none
        | some (v, rest3) =>
          match rest3 with
          | 44 :: rest4 => (parseObjItems fuel rest4).map (fun p => ((k, v) :: p.1, p.2))
          | 125 :: rest4 => some ([(k, v)], rest4)
          | _ => none
      | _ => none

/-- Parse a payload value: a nested (leaf-valued) object or a leaf. -/
def parseVal (l : List Nat) : Option (JVal × List Nat) :=
  match l with
  | 123 :: 125 :: rest => some (.jobj [], rest)
  | 123 :: rest => (parseObjItems rest.length rest).map (fun p => (.jobj p.1, p.2))
  | _ => (parseAtom l).map (fun p => (.atom p.1, p.2))

/-- Parse the bindings of the nonempty top-level payload object, up to
and including the closing brace. -/
def parseTopItems : Nat → List Nat → Option (List (List Nat × JVal) × List Nat)
  | 0, _ => none
  | fuel + 1, l =>
    match parseStrBytes l with
    | none => none
    | some (k, rest) =>
      match rest with
      | 58 :: rest2 =>
        match parseVal rest2 with
        | none => none
        | some (v, rest3) =>
          match rest3 with
          | 44 :: rest4 => (parseTopItems fuel rest4).map (fun p => ((k, v) :: p.1, p.2))
          | 125 :: rest4 => some ([(k, v)], rest4)
          | _ => none
      | _ => none

/-- Parse the top-level payload object. -/
def parseTop (l : List Nat) : Option (List (List Nat × JVal) × List Nat) :=
  match l with
  | 123 :: 125 :: rest => some ([], rest)
  | 123 :: rest => parseTopItems rest.length rest
  | _ => none

/-- `json.loads(payload)`: the whole input must parse as one object. -/
def jloads (l : List Nat) : Option (List (List Nat × JVal)) :=
  match parseTop l with
  | some (v, []) => some v
  | _ => none

/-! ### server/fusion_receiver.py -/

/-- `bytes.rsplit(sep, 1)` when the separator occurs: the part before
the last separator byte and the part after it; `none` when the
separator is absent (unpacking `payload, crc_hex` then raises). -/
def rsplitLast : List Nat → Nat → Option (List Nat × List Nat)
  | [], _ => none
  | x :: xs, sep =>
    match rsplitLast xs sep with
    | some p => some (x :: p.1, p.2)
    | none => if x = sep then some ([], xs) else none

/-- `parse_packet` (fusion_receiver.py lines 15-24): split on the last
`0x7C`, recompute the CRC32 of the payload portion, reject on mismatch,
otherwise `json.loads` the payload.  Returns the decoded payload and the
received hex digits, `none` for every raising path. -/
def parsePacket (data : List Nat) : Option (List (List Nat × JVal) × List Nat) :=
  match rsplitLast data 124 with
  | none => none
  | some (payload, crcHex) =>
    if hexBytes (crc32 payload) = crcHex then
      (jloads payload).map (fun v => (v, crcHex))
    else none

/-! ### server/state_store.py -/

/-- The server-side `Frame` dataclass (state_store.py lines 9-22).
`timestamp` is `ts_us / 1_000_000.0`, exact in `ℚ`. -/
structure Frame where
  node_id : Int
  seq : Int
  timestamp : ℚ
  present : Bool
  mic_rms : List Int
  noise_rms : List Int
  crest : List Int
  bandpower : List Int
  dir_local : List Int
  dir_conf : Int
  total_energy : Int
  extra : List (List Nat × JVal)
deriving DecidableEq

/-- Last-value-wins dict lookup (`payload[k]` / `payload.get(k)`). -/
def dlookup (d : List (List Nat × JVal)) (k : List Nat) : Option JVal :=
  d.foldl (fun acc kv => if kv.1 = k then some kv.2 else acc) none

/-- `payload[k]` where the receiver needs a number (`node_id`, `seq`,
`ts_us`): absent key raises (drop), modelled non-numeric values fail. -/
def asInt : Option JVal → Option Int
  | some (.atom (.jint n)) => some n
  | _ => none

/-- `payload.get(k, False)` for the `present` flag. -/
def asBoolD : Option JVal → Option Bool
  | none => some false
  | some (.atom (.jbool b)) => some b
  | _ => none

/-- `payload.get(k, [])` for the per-channel lists. -/
def asArrD : Option JVal → Option (List Int)
  | none => some []
  | some (.atom (.jarr xs)) => some xs
  | _ => none

/-- `payload.get(k, 0.0)` for `dir_conf`. -/
def asIntD : Option JVal → Option Int
  | none => some 0
  | some (.atom (.jint n)) => some n
  | _ => none

/-- The `Frame(...)` construction in `datagram_received`
(fusion_receiver.py lines 34-47): required `node_id`/`seq`/`ts_us`,
defaulted optional fields, `total_energy` defaulting to
`sum(payload.get("mic_rms", []))`, and `extra` set to the whole decoded
payload. -/
def buildFrame (payload : List (List Nat × JVal)) : Option Frame := do
  let nodeId ← asInt (dlookup payload (bsOf "node_id"))
  let seqv ← asInt (dlookup payload (bsOf "seq"))
  let tsUs ← asInt (dlookup payload (bsOf "ts_us"))
  let present ← asBoolD (dlookup payload (bsOf "present"))
  let micRms ← asArrD (dlookup payload (bsOf "mic_rms"))
  let noiseRms ← asArrD (dlookup payload (bsOf "noise_rms"))
  let crestL ← asArrD (dlookup payload (bsOf "crest"))
  let bandpower ← asArrD (dlookup payload (bsOf "bandpower"))
  let dirLocal ← asArrD (dlookup payload (bsOf "dir_local"))
  let dirConf ← asIntD (dlookup payload (bsOf "dir_conf"))
  let totalEnergy ←
    match dlookup payload (bsOf "total_energy") with
    | none => some micRms.sum
    | some (.atom (.jint t)) => some t
    | _ => none
  some { node_id := nodeId, seq := seqv, timestamp := (tsUs : ℚ) / 1000000,
         present := present, mic_rms := micRms, noise_rms := noiseRms,
         crest := crestL, bandpower := bandpower, dir_local := dirLocal,
         dir_conf := dirConf, total_energy := totalEnergy, extra := payload }

/-- `NodeState` (state_store.py lines 25-29). -/
structure NodeState where
  last_frame : Option Frame
  last_seen : ℚ
  online : Bool
deriving DecidableEq

/-- `FrameStore` (state_store.py lines 43-65): the mutex-guarded
insertion-ordered map `node_id → NodeState`.  The `FusionState`
singleton it also guards is threaded explicitly through `localize`
below. -/
structure FrameStore where
  nodes : List (Int × NodeState)
deriving DecidableEq

/-- `FrameStore.update_frame` (lines 49-54): upsert, replacing
`last_frame`, stamping `last_seen = now`, setting `online = True`. -/
def updateFrame (store : FrameStore) (frame : Frame) (now : ℚ) : FrameStore :=
  if store.nodes.any (fun e => e.1 = frame.node_id) then
    { nodes := store.nodes.map (fun e =>
        if e.1 = frame.node_id then (e.1, ⟨some frame, now, true⟩) else e) }
  else
    { nodes := store.nodes ++ [(frame.node_id, ⟨some frame, now, true⟩)] }

/-- `FrameStore.get_frames` (lines 56-58): snapshot of
`node_id → last_frame` over every node with a frame, whatever its
`online` flag. -/
def getFrames (store : FrameStore) : List (Int × Frame) :=
  store.nodes.filterMap (fun e => (e.2.last_frame).map (fun f => (e.1, f)))

/-- `FrameStore.mark_offline` (lines 60-65; default `timeout = 2.0`):
nodes not seen for longer than `timeout` get `online = False`; nothing
else changes. -/
def markOffline (store : FrameStore) (timeout now : ℚ) : FrameStore :=
  { nodes := store.nodes.map (fun e =>
      if now - e.2.last_seen > timeout then (e.1, { e.2 with online := false }) else e) }

/-- `FusionReceiverProtocol.datagram_received` (fusion_receiver.py lines
31-50): parse, rebuild the `Frame`, store it; every raising path is
caught and leaves the store untouched. -/
def datagramReceived (store : FrameStore) (data : List Nat) (now : ℚ) : FrameStore :=
  match parsePacket data with
  | none => store
  | some (payload, _) =>
    match buildFrame payload with
    | none => store
    | some frame => updateFrame store frame now

/-! ### server/localization.py

Grid coordinates, the refinement step and the configured bounds are
exact rationals; costs, positions and velocities are reals (the cost
takes square roots).  `math.inf`, the initial best cost, is modelled by
an `Option` accumulator: a real cost always compares below it. -/

/-- A candidate source position (grid coordinates). -/
abbrev QPoint : Type := ℚ × ℚ × ℚ

/-- Cast a grid point into `ℝ³`. -/
def ratVec (p : QPoint) : Vec3 := ((p.1 : ℝ), (p.2.1 : ℝ), (p.2.2 : ℝ))

/-- First three entries of `np.array(frame.dir_local)` (always length 3
in the frames the node emits). -/
def intVec (l : List Int) : Vec3 := (((l.getD 0 0 : Int) : ℝ), ((l.getD 1 0 : Int) : ℝ), ((l.getD 2 0 : Int) : ℝ))

/-- Componentwise difference of 3-vectors. -/
def sub3 (a b : Vec3) : Vec3 := (a.1 - b.1, a.2.1 - b.2.1, a.2.2 - b.2.2)

/-- Componentwise sum of 3-vectors. -/
def add3 (a b : Vec3) : Vec3 := (a.1 + b.1, a.2.1 + b.2.1, a.2.2 + b.2.2)

/-- `np.dot` of 3-vectors. -/
def dot3 (a b : Vec3) : ℝ := a.1 * b.1 + a.2.1 * b.2.1 + a.2.2 * b.2.2

/-- `_distance` (localization.py lines 17-18): Euclidean distance plus
the `1e-6` guard. -/
noncomputable def distGuard (a b : Vec3) : ℝ := norm3 (sub3 a b) + 1 / 1000000

/-- `np.arange(a, b, step)` over exact rationals:
`a, a+step, a+2·step, …` with `⌈(b-a)/step⌉` entries. -/
def arange (a b step : ℚ) : List ℚ :=
  (List.range (⌈(b - a) / step⌉).toNat).map (fun k => a + step * ((k : Nat) : ℚ))

/-- `_grid_points` (localization.py lines 21-28): `x` outer, `y` middle,
`z` inner, each axis running `arange(lo, hi + step, step)`. -/
def gridPoints (xb yb zb : ℚ × ℚ) (step : ℚ) : List QPoint :=
  (arange xb.1 (xb.2 + step) step).flatMap (fun x =>
    (arange yb.1 (yb.2 + step) step).flatMap (fun y =>
      (arange zb.1 (zb.2 + step) step).map (fun z => (x, y, z))))

/-- `normalize_energies` (localization.py lines 31-33): divide by the
`ε`-guarded total. -/
noncomputable def normalizeEnergies (energies : List (Int × ℝ)) : List (Int × ℝ) :=
  let total := (energies.map (fun e => e.2)).sum + 1 / 1000000
  energies.map (fun e => (e.1, e.2 / total))

/-- `FusionConfig` fields used by the engine (server/config.py):
grid box, grid step, smoothing coefficients, direction weight, and the
per-node world positions. -/
structure FusionConfig where
  xb : ℚ × ℚ
  yb : ℚ × ℚ
  zb : ℚ × ℚ
  grid_step : ℚ
  smoothing_alpha : ℝ
  smoothing_beta : ℝ
  direction_weight : ℝ
  node_positions : Int → Option Vec3

/-- `dict.get(node_id, 0)` on a real-valued association list. -/
def lookupRD (d : List (Int × ℝ)) (k : Int) : ℝ :=
  ((d.find? (fun e => e.1 = k)).map (fun e => e.2)).getD 0

/-- `LocalizationEngine._point_error` (localization.py lines 116-137):
squared residual between predicted (inverse-square, renormalized) and
observed normalized energies, plus the direction residual term for
every node with a known position and a nonzero reported direction. -/
noncomputable def pointError (cfg : FusionConfig) (frames : List (Int × Frame))
    (normalized : List (Int × ℝ)) (p : QPoint) : ℝ :=
  let predictions := frames.filterMap (fun nf =>
    (cfg.node_positions nf.1).map (fun pos =>
      (nf.1, 1 / (distGuard (ratVec p) pos * distGuard (ratVec p) pos))))
  let predNorm := normalizeEnergies predictions
  let err := (frames.map (fun nf =>
    (lookupRD predNorm nf.1 - lookupRD normalized nf.1) ^ 2)).sum
  let dirTerms := frames.filterMap (fun nf =>
    match cfg.node_positions nf.1 with
    | none => none
    | some pos =>
      let direction := intVec nf.2.dir_local
      if norm3 direction = 0 then none
      else
        let target := sub3 (ratVec p) pos
        let tn := norm3 target + 1 / 1000000
        some (cfg.direction_weight * (1 - dot3 direction (div3 target tn))))
  err + dirTerms.sum

/-- The accumulator loop of `_grid_search` (localization.py lines
104-111) over an arbitrary candidate list and cost: `none` is the
initial `(None, inf)` pair, and a candidate replaces the best on a
strictly smaller cost, so the first minimum encountered is kept. -/
noncomputable def gridSearchBy (f : QPoint → ℝ) (pts : List QPoint) :
    Option (QPoint × ℝ) :=
  pts.foldl (fun best p =>
    match best with
    | none => some (p, f p)
    | some be => if f p < be.2 then some (p, f p) else best) none

/-- `LocalizationEngine._grid_search` composed with `_grid_points`. -/
noncomputable def gridSearch (cfg : FusionConfig) (frames : List (Int × Frame))
    (normalized : List (Int × ℝ)) : Option (QPoint × ℝ) :=
  gridSearchBy (pointError cfg frames normalized) (gridPoints cfg.xb cfg.yb cfg.zb cfg.grid_step)

/-- `candidate[axis] += delta`. -/
def bumpAxis (p : QPoint) (axis : Nat) (delta : ℚ) : QPoint :=
  match axis with
  | 0 => (p.1 + delta, p.2.1, p.2.2)
  | 1 => (p.1, p.2.1 + delta, p.2.2)
  | 2 => (p.1, p.2.1, p.2.2 + delta)
  | _ => p

/-- One trial of `_refine`: accept the candidate iff its cost is
strictly below the current point's (re-evaluated) cost. -/
noncomputable def refineStep (f : QPoint → ℝ) (s : QPoint × Bool)
    (axis : Nat) (delta : ℚ) : QPoint × Bool :=
  let candidate := bumpAxis s.1 axis delta
  if f candidate < f s.1 then (candidate, true) else s

/-- One round of `_refine` (localization.py lines 143-152): axes 0,1,2,
deltas `-step` then `+step`, first-improvement with immediate accept. -/
noncomputable def refineRound (f : QPoint → ℝ) (p : QPoint) (step : ℚ) : QPoint × Bool :=
  [(0, -step), (0, step), (1, -step), (1, step), (2, -step), (2, step)].foldl
    (fun s ad => refineStep f s ad.1 ad.2) (p, false)

/-- The round loop of `_refine` (lines 142-156): up to 10 rounds; after
an unimproved round the step halves, and the loop breaks once the
halved step drops below 0.25. -/
noncomputable def refineLoop (f : QPoint → ℝ) : Nat → QPoint → ℚ → QPoint
  | 0, p, _ => p
  | k + 1, p, step =>
    let r := refineRound f p step
    if r.2 then refineLoop f k r.1 step
    else if step / 2 < 1 / 4 then r.1
    else refineLoop f k r.1 (step / 2)

/-- `LocalizationEngine._refine` (lines 139-157): coordinate descent
from the grid winner, starting at half the grid spacing. -/
noncomputable def refine (f : QPoint → ℝ) (start : QPoint) (gridStep : ℚ) : QPoint :=
  refineLoop f 10 start (gridStep / 2)

/-- The per-tick `FusionState` (state_store.py lines 32-40).
`node_details` entries are `(id, normalized energy, raw dir, online)`. -/
structure FusionState where
  timestamp : ℝ
  present : Bool
  position : Vec3
  velocity : Vec3
  confidence : ℝ
  error : ℝ
  node_details : List (Int × ℝ × List Int × Bool)

/-- The engine's own mutable state (localization.py lines 41-42). -/
structure EngineState where
  last_position : Vec3
  velocity : Vec3

/-- `LocalizationEngine._localize` (localization.py lines 64-102) as a
function of the engine state, the stored fusion state, the frame
snapshot and the current time.  Fewer than two reporting nodes: a
no-op tick.  No presently-detecting node: the stored state is re-emitted
with `present = False`, `confidence = 0.0` and everything else —
position and velocity included — unchanged.  Otherwise grid search,
refinement and exponential smoothing produce a fresh state.  The
`best_point is None` branch (empty grid) returns the source's
`(zeros, math.inf)` pair, which `ℝ` cannot carry; it is modelled as a
dropped tick and is unreachable for a nonempty grid. -/
noncomputable def localize (cfg : FusionConfig) (eng : EngineState) (prev : FusionState)
    (frames : List (Int × Frame)) (now : ℝ) : EngineState × Option FusionState :=
  if frames.length < 2 then (eng, none)
  else
    let energies := frames.map (fun nf => (nf.1, ((nf.2.total_energy : ℤ) : ℝ)))
    let normalized := normalizeEnergies energies
    let presentNodes := (frames.filter (fun nf => nf.2.present)).map (fun nf => nf.1)
    if presentNodes = [] then
      (eng, some { prev with present := false, confidence := 0 })
    else
      match gridSearch cfg frames normalized with
      | none => (eng, none)
      | some be =>
        let refined := ratVec (refine (pointError cfg frames normalized) be.1 cfg.grid_step)
        let dt := max (now - prev.timestamp) (1 / 1000)
        let velocityRaw := smul3 (1 / dt) (sub3 refined eng.last_position)
        let position := add3 (smul3 cfg.smoothing_alpha refined)
          (smul3 (1 - cfg.smoothing_alpha) eng.last_position)
        let velocity := add3 (smul3 cfg.smoothing_beta velocityRaw)
          (smul3 (1 - cfg.smoothing_beta) eng.velocity)
        let nodeDetails := frames.map (fun nf => (nf.1, lookupRD normalized nf.1, nf.2.dir_local, true))
        ({ last_position := position, velocity := velocity },
         some { timestamp := now, present := true, position := position,
                velocity := velocity, confidence := max 0 (1 - be.2),
                error := be.2, node_details := nodeDetails })

/-! ### Concrete instances (used by witness theorems) -/

/-- Fallback entry for indexed access into a store's node list. -/
def dfltNode : Int × NodeState := (0, ⟨none, 0, false⟩)

/-- A server frame with the given id, presence flag and total energy. -/
def frameEx (nid : Int) (present : Bool) (te : Int) : Frame :=
  ⟨nid, 0, 0, present, [], [], [], [], [], 0, te, []⟩

/-- Two reporting, non-detecting nodes. -/
def framesEx : List (Int × Frame) := [(1, frameEx 1 false 5), (2, frameEx 2 false 3)]

/-- A small fusion configuration. -/
noncomputable def cfgEx : FusionConfig :=
  { xb := (0, 1), yb := (0, 0), zb := (0, 0), grid_step := 1,
    smoothing_alpha := 1 / 2, smoothing_beta := 1 / 5, direction_weight := 1 / 2,
    node_positions := fun i =>
      if i = 1 then some (0, 0, 0) else if i = 2 then some (4, 0, 0) else none }

/-- A prior fusion state with nonzero position and velocity. -/
noncomputable def prevEx : FusionState :=
  ⟨0, true, (1, 2, 3), (4, 5, 6), 1 / 2, 1 / 10, []⟩

/-- An engine state. -/
noncomputable def engEx : EngineState := ⟨(7, 8, 9), (0, 0, 0)⟩

/-- A store with one stale node (last seen at 0) and one fresh node
(last seen at 9), swept at time 10 with timeout 2. -/
def storeEx : FrameStore :=
  ⟨[(1, ⟨some (frameEx 1 false 5), 0, true⟩), (2, ⟨none, 9, true⟩)]⟩

/-- A decoded payload with no `total_energy` key. -/
def payloadEx : List (List Nat × JVal) :=
  [(bsOf "node_id", .atom (.jint 1)), (bsOf "seq", .atom (.jint 0)),
   (bsOf "ts_us", .atom (.jint 0)), (bsOf "mic_rms", .atom (.jarr [2, 3]))]

/-- A one-channel extractor state: zero noise floor, not detecting. -/
noncomputable def stEx : FEState 0 := ⟨fun _ => 0, False⟩

/-- A one-channel, one-sample window with value 3. -/
def wsEx : List (Fin 1 → List ℝ) := [fun _ => [3]]

/-- A one-channel geometry. -/
noncomputable def vecsEx : Fin 1 → Vec3 := fun _ => ((1 : ℝ), (0 : ℝ), (0 : ℝ))

/-- Strict lexicographic order on grid points: `x` major, then `y`,
then `z` — the enumeration order of `_grid_points`. -/
def pointLexLt (p q : QPoint) : Prop :=
  p.1 < q.1 ∨ (p.1 = q.1 ∧ (p.2.1 < q.2.1 ∨ (p.2.1 = q.2.1 ∧ p.2.2 < q.2.2)))

/-- The 13 dataclass field names of `Packet`, as serialized keys. -/
def packetKeys : List (List Nat) :=
  [bsOf "node_id", bsOf "seq", bsOf "ts_us", bsOf "present", bsOf "mic_rms",
   bsOf "noise_rms", bsOf "crest", bsOf "bandpower", bsOf "dir_local",
   bsOf "dir_conf", bsOf "supply_v", bsOf "temp_c", bsOf "extra"]

/-- The `extra` entries as they appear merged into the flat payload
(empty when `extra` is `None` or the empty dict, which are falsy). -/
def extraJ (p : Packet) : List (List Nat × JVal) :=
  match p.extra with
  | none => []
  | some kvs => if kvs = [] then [] else kvs.map (fun kv => (kv.1, JVal.atom kv.2))

/-- Flip bit `j` of byte `i` of a byte string. -/
def flipBit (l : List Nat) (i j : Nat) : List Nat :=
  l.take i ++ ((l.getD i 0) ^^^ 2 ^ j) :: l.drop (i + 1)

/-- A small packet with one extra telemetry entry. -/
def pEx : Packet :=
  { node_id := 1, seq := 2, ts_us := 3, present := false, mic_rms := [],
    noise_rms := [], crest := [], bandpower := [], dir_local := [],
    dir_conf := 0, supply_v := 0, temp_c := 0,
    extra := some [(bsOf "h", JAtom.jint 5)] }

/-! ## Claim theorems -/

/-- C6.  `mark_offline(timeout)` at sweep time `now`: the node map keeps
its length; entry `i` keeps its key and, when stale
(`now - last_seen > timeout`), only its `online` flag is cleared —
otherwise it is untouched; in both cases `last_frame`/`last_seen`
survive (the record update touches `online` only); and `get_frames()`
is unchanged, so every node that ever reported stays queryable
regardless of its `online` flag. -/
theorem C6_mark_offline_sweep (store : FrameStore) (timeout now : ℚ) (i : Nat)
    (hi : i < store.nodes.length) :
    getFrames (markOffline store timeout now) = getFrames store ∧
    (markOffline store timeout now).nodes.length = store.nodes.length ∧
    (markOffline store timeout now).nodes.getD i dfltNode =
      (if now - (store.nodes.getD i dfltNode).2.last_seen > timeout
       then ((store.nodes.getD i dfltNode).1,
             { (store.nodes.getD i dfltNode).2 with online := false })
       else store.nodes.getD i dfltNode) := by
  refine ⟨?_, ?_, ?_⟩
  · simp only [getFrames, markOffline, List.filterMap_map]
    congr 1
    funext e
    by_cases h : now - e.2.last_seen > timeout <;> simp [h]
  · simp [markOffline]
  · simp only [markOffline, List.getD_eq_getElem?_getD, List.getElem?_map,
      List.getElem?_eq_getElem hi]
    by_cases h : now - (store.nodes[i]).2.last_seen > timeout <;> simp [h]

/-- C6 witness: in `storeEx` swept at time 10 with timeout 2, node 0
(last seen at 0) is stale. -/
theorem C6_mark_offline_sweep_witness :
    0 < storeEx.nodes.length ∧
    (getFrames (markOffline storeEx 2 10) = getFrames storeEx ∧
     (markOffline storeEx 2 10).nodes.length = storeEx.nodes.length ∧
     (markOffline storeEx 2 10).nodes.getD 0 dfltNode =
       (if (10 : ℚ) - (storeEx.nodes.getD 0 dfltNode).2.last_seen > 2
        then ((storeEx.nodes.getD 0 dfltNode).1,
              { (storeEx.nodes.getD 0 dfltNode).2 with online := false })
        else storeEx.nodes.getD 0 dfltNode)) :=
  ⟨by decide, C6_mark_offline_sweep storeEx 2 10 0 (by decide)⟩

/-- C4.  A localization tick with at least two reported frames and no
`present` frame re-emits the stored fusion state with `present = False`
and `confidence = 0.0` and every other field — position and velocity
included — unchanged, and leaves the engine state untouched. -/
theorem C4_silent_tick_carries_position (cfg : FusionConfig) (eng : EngineState)
    (prev : FusionState) (frames : List (Int × Frame)) (now : ℝ)
    (h2 : 2 ≤ frames.length) (hnp : ∀ nf ∈ frames, nf.2.present = false) :
    localize cfg eng prev frames now =
      (eng, some { prev with present := false, confidence := 0 }) := by
  have hlt : ¬ frames.length < 2 := by omega
  have hfilter : frames.filter (fun nf => nf.2.present) = [] :=
    List.filter_eq_nil_iff.mpr (fun a ha => by simp [hnp a ha])
  simp [localize, hlt, hfilter]

/-- C4 witness: two non-detecting nodes at tick time 0. -/
theorem C4_silent_tick_carries_position_witness :
    2 ≤ framesEx.length ∧ (∀ nf ∈ framesEx, nf.2.present = false) ∧
    localize cfgEx engEx prevEx framesEx 0 =
      (engEx, some { prevEx with present := false, confidence := 0 }) :=
  ⟨by decide, by decide,
   C4_silent_tick_carries_position cfgEx engEx prevEx framesEx 0 (by decide) (by decide)⟩

/-- C10.  When a decoded payload has no `total_energy` key, the
reconstructed frame's `total_energy` is `sum(payload.get("mic_rms", []))`
— the sum of its `mic_rms` list — and `0` when `mic_rms` is also
absent; the packet is not rejected for the missing key. -/
theorem C10_total_energy_defaults_to_mic_sum (payload : List (List Nat × JVal))
    (hte : dlookup payload (bsOf "total_energy") = none) :
    (buildFrame payload).map (fun f => f.total_energy)
      = (buildFrame payload).map (fun f => f.mic_rms.sum) ∧
    (dlookup payload (bsOf "mic_rms") = none →
      (buildFrame payload).map (fun f => f.total_energy)
        = (buildFrame payload).map (fun _ => (0 : Int))) := by
  rcases h1 : asInt (dlookup payload (bsOf "node_id")) with _ | n1
  · simp only [buildFrame, Option.bind_eq_bind, h1, Option.none_bind, Option.map_none']
    exact ⟨trivial, fun _ => trivial⟩
  rcases h2 : asInt (dlookup payload (bsOf "seq")) with _ | n2
  · simp only [buildFrame, Option.bind_eq_bind, h1, h2, Option.none_bind,
      Option.some_bind, Option.map_none']
    exact ⟨trivial, fun _ => trivial⟩
  rcases h3 : asInt (dlookup payload (bsOf "ts_us")) with _ | n3
  · simp only [buildFrame, Option.bind_eq_bind, h1, h2, h3, Option.none_bind,
      Option.some_bind, Option.map_none']
    exact ⟨trivial, fun _ => trivial⟩
  rcases h4 : asBoolD (dlookup payload (bsOf "present")) with _ | b4
  · simp only [buildFrame, Option.bind_eq_bind, h1, h2, h3, h4, Option.none_bind,
      Option.some_bind, Option.map_none']
    exact ⟨trivial, fun _ => trivial⟩
  rcases h5 : asArrD (dlookup payload (bsOf "mic_rms")) with _ | m5
  · simp only [buildFrame, Option.bind_eq_bind, h1, h2, h3, h4, h5, Option.none_bind,
      Option.some_bind, Option.map_none']
    exact ⟨trivial, fun _ => trivial⟩
  rcases h6 : asArrD (dlookup payload (bsOf "noise_rms")) with _ | m6
  · simp only [buildFrame, Option.bind_eq_bind, h1, h2, h3, h4, h5, h6, Option.none_bind,
      Option.some_bind, Option.map_none']
    exact ⟨trivial, fun _ => trivial⟩
  rcases h7 : asArrD (dlookup payload (bsOf "crest")) with _ | m7
  · simp only [buildFrame, Option.bind_eq_bind, h1, h2, h3, h4, h5, h6, h7,
      Option.none_bind, Option.some_bind, Option.map_none']
    exact ⟨trivial, fun _ => trivial⟩
  rcases h8 : asArrD (dlookup payload (bsOf "bandpower")) with _ | m8
  · simp only [buildFrame, Option.bind_eq_bind, h1, h2, h3, h4, h5, h6, h7, h8,
      Option.none_bind, Option.some_bind, Option.map_none']
    exact ⟨trivial, fun _ => trivial⟩
  rcases h9 : asArrD (dlookup payload (bsOf "dir_local")) with _ | m9
  · simp only [buildFrame, Option.bind_eq_bind, h1, h2, h3, h4, h5, h6, h7, h8, h9,
      Option.none_bind, Option.some_bind, Option.map_none']
    exact ⟨trivial, fun _ => trivial⟩
  rcases h10 : asIntD (dlookup payload (bsOf "dir_conf")) with _ | d10
  · simp only [buildFrame, Option.bind_eq_bind, h1, h2, h3, h4, h5, h6, h7, h8, h9, h10,
      Option.none_bind, Option.some_bind, Option.map_none']
    exact ⟨trivial, fun _ => trivial⟩
  constructor
  · simp only [buildFrame, Option.bind_eq_bind, h1, h2, h3, h4, h5, h6, h7, h8, h9, h10,
      hte, Option.none_bind, Option.some_bind, Option.map_some']
  · intro hm
    have ha : asArrD (dlookup payload (bsOf "mic_rms")) = some [] := by rw [hm]; rfl
    simp only [buildFrame, Option.bind_eq_bind, h1, h2, h3, h4, ha, h6, h7, h8, h9, h10,
      hte, Option.none_bind, Option.some_bind, Option.map_some', List.sum_nil]

/-- C10 witness: a payload carrying only the required keys and a
`mic_rms` list sums that list into `total_energy`. -/
theorem C10_total_energy_defaults_to_mic_sum_witness :
    dlookup payloadEx (bsOf "total_energy") = none ∧
    ((buildFrame payloadEx).map (fun f => f.total_energy)
        = (buildFrame payloadEx).map (fun f => f.mic_rms.sum) ∧
     (dlookup payloadEx (bsOf "mic_rms") = none →
       (buildFrame payloadEx).map (fun f => f.total_energy)
         = (buildFrame payloadEx).map (fun _ => (0 : Int)))) ∧
    (buildFrame payloadEx).map (fun f => f.total_energy) = some 5 :=
  ⟨by decide, C10_total_energy_defaults_to_mic_sum payloadEx (by decide), by decide⟩

/-! ## DirectionEstimator lemmas (claims C8, C9) -/

/-- Scaling by 0 gives the zero vector. -/
theorem smul3_zero_left (v : Vec3) : smul3 0 v = ((0 : ℝ), (0 : ℝ), (0 : ℝ)) := by
  simp [smul3]

/-- The norm of the zero vector is 0. -/
theorem norm3_zero : norm3 ((0 : ℝ), (0 : ℝ), (0 : ℝ)) = 0 := by
  simp [norm3, Real.sqrt_eq_zero']

/-- Norms scale by nonnegative factors. -/
theorem norm3_smul_nonneg (c : ℝ) (v : Vec3) (hc : 0 ≤ c) :
    norm3 (smul3 c v) = c * norm3 v := by
  unfold norm3 smul3
  rw [show (c * v.1) ^ 2 + (c * v.2.1) ^ 2 + (c * v.2.2) ^ 2
      = c ^ 2 * (v.1 ^ 2 + v.2.1 ^ 2 + v.2.2 ^ 2) by ring]
  rw [Real.sqrt_mul (sq_nonneg c), Real.sqrt_sq_eq_abs, abs_of_nonneg hc]

/-- Dividing `c • v` by a nonzero `c` recovers `v`. -/
theorem div3_smul_cancel (c : ℝ) (v : Vec3) (hc : c ≠ 0) : div3 (smul3 c v) c = v := by
  unfold div3 smul3
  rw [mul_div_cancel_left₀ _ hc, mul_div_cancel_left₀ _ hc, mul_div_cancel_left₀ _ hc]

/-- C9 at the `estimate` level: zero confidence exactly when the
returned direction is the zero vector. -/
theorem estimate_conf_zero_iff_dir_zero (vecs : Fin n → Vec3) (w : Fin n → ℝ) :
    (estimate vecs w).2 = 0 ↔ (estimate vecs w).1 = ((0 : ℝ), (0 : ℝ), (0 : ℝ)) := by
  simp only [estimate]
  split_ifs with h1 h2
  · simp
  · simp
  · have hS : 0 < ∑ i, max (w i) 0 := by
      push_neg at h1
      obtain ⟨i, hi⟩ := h1
      exact Finset.sum_pos' (fun j _ => le_max_right _ _)
        ⟨i, Finset.mem_univ i, lt_of_le_of_ne (le_max_right _ _) (Ne.symm hi)⟩
    have hconf : min (∑ i, max (w i) 0) 1 ≠ 0 := ne_of_gt (lt_min hS one_pos)
    have hdir : div3 (∑ i, smul3 (max (w i) 0) (vecs i)) (norm3 (∑ i, smul3 (max (w i) 0) (vecs i))) ≠ ((0 : ℝ), (0 : ℝ), (0 : ℝ)) := by
      intro hz
      apply h2
      have h1z : (∑ i, smul3 (max (w i) 0) (vecs i)).1 = 0 := by
        have := congrArg Prod.fst hz
        simp only [div3] at this
        rcases div_eq_zero_iff.mp this with h | h
        · exact h
        · exact absurd h h2
      have h2z : (∑ i, smul3 (max (w i) 0) (vecs i)).2.1 = 0 := by
        have := congrArg (fun p => p.2.1) hz
        simp only [div3] at this
        rcases div_eq_zero_iff.mp this with h | h
        · exact h
        · exact absurd h h2
      have h3z : (∑ i, smul3 (max (w i) 0) (vecs i)).2.2 = 0 := by
        have := congrArg (fun p => p.2.2) hz
        simp only [div3] at this
        rcases div_eq_zero_iff.mp this with h | h
        · exact h
        · exact absurd h h2
      have hv : (∑ i, smul3 (max (w i) 0) (vecs i)) = ((0 : ℝ), (0 : ℝ), (0 : ℝ)) := by
        exact Prod.ext h1z (Prod.ext h2z h3z)
      rw [hv]
      exact norm3_zero
    constructor
    · intro h
      exact absurd h hconf
    · intro h
      exact absurd h hdir

/-- C9.  Every frame the extractor emits satisfies the invariant
`dir_conf == 0 ⇔ dir_local == [0, 0, 0]`: the estimator's zero-result
branches set both together, and any other branch returns a unit-scaled
nonzero direction with `min` of a positive sum as confidence. -/
theorem C9_dir_conf_zero_iff_dir_zero (n : Nat) (sr : ℝ) (vecs : Fin (n + 1) → Vec3)
    (st : FEState n) (window : Fin (n + 1) → List ℝ) :
    ((emitFrame sr vecs st window).2.dir_conf = 0 ↔
     (emitFrame sr vecs st window).2.dir_local = ((0 : ℝ), (0 : ℝ), (0 : ℝ))) := by
  simp only [emitFrame]
  exact estimate_conf_zero_iff_dir_zero vecs _

/-- C8.  `DirectionEstimator.estimate`: all-zero weights give
`(zeros(3), 0.0)`; a weighted geometry sum of zero magnitude gives
`(zeros(3), 0.0)`; and a single positive weight `c` on channel `i`
whose stored geometry row is a unit vector returns exactly that row
with confidence `min(c, 1)`. -/
theorem C8_estimate_cases (n : Nat) (vecs : Fin n → Vec3) (w : Fin n → ℝ) :
    ((∀ i, w i = 0) → estimate vecs w = (((0 : ℝ), (0 : ℝ), (0 : ℝ)), 0)) ∧
    (norm3 (∑ i, smul3 (max (w i) 0) (vecs i)) = 0 →
      estimate vecs w = (((0 : ℝ), (0 : ℝ), (0 : ℝ)), 0)) ∧
    (∀ (i : Fin n) (c : ℝ), 0 < c → w i = c → (∀ j, j ≠ i → w j = 0) →
      norm3 (vecs i) = 1 → estimate vecs w = (vecs i, min c 1)) := by
  refine ⟨?_, ?_, ?_⟩
  · intro h
    simp only [estimate]
    rw [if_pos (fun i => by rw [h i]; exact max_self 0)]
  · intro hn
    simp only [estimate]
    split_ifs with h1 <;> rfl
  · intro i c hc hwi hwj hunit
    have hwci : max (w i) 0 = c := by rw [hwi]; exact max_eq_left hc.le
    have hwc : ∀ j, j ≠ i → max (w j) 0 = 0 := fun j hj => by
      rw [hwj j hj]; exact max_self 0
    have hnall : ¬ ∀ j, max (w j) 0 = 0 := fun hall => by
      have hhi := hall i
      rw [hwci] at hhi
      exact absurd hhi (ne_of_gt hc)
    have hdirsum : (∑ j, smul3 (max (w j) 0) (vecs j)) = smul3 c (vecs i) := by
      rw [Finset.sum_eq_single i]
      · rw [hwci]
      · intro j _ hj
        rw [hwc j hj]
        exact smul3_zero_left _
      · intro hnot
        exact absurd (Finset.mem_univ i) hnot
    have hsum : (∑ j, max (w j) 0) = c := by
      rw [Finset.sum_eq_single i]
      · exact hwci
      · intro j _ hj
        exact hwc j hj
      · intro hnot
        exact absurd (Finset.mem_univ i) hnot
    have hnrm : norm3 (∑ j, smul3 (max (w j) 0) (vecs j)) = c := by
      rw [hdirsum, norm3_smul_nonneg c _ hc.le, hunit, mul_one]
    simp only [estimate]
    rw [if_neg hnall, if_neg (by rw [hnrm]; exact ne_of_gt hc), hsum, hdirsum,
      norm3_smul_nonneg c _ hc.le, hunit, mul_one, div3_smul_cancel c _ (ne_of_gt hc)]

/-- C8 witness: two channels with unit geometry rows, weight 2 on
channel 0 and 0 on channel 1, give direction `(1,0,0)` and confidence
`min 2 1`. -/
theorem C8_estimate_cases_witness :
    (0 : ℝ) < 2 ∧ norm3 ((1 : ℝ), (0 : ℝ), (0 : ℝ)) = 1 ∧
    estimate (fun j : Fin 2 => if j = 0 then ((1 : ℝ), (0 : ℝ), (0 : ℝ)) else ((0 : ℝ), (1 : ℝ), (0 : ℝ)))
        (fun j : Fin 2 => if j = 0 then (2 : ℝ) else 0)
      = (((1 : ℝ), (0 : ℝ), (0 : ℝ)), min 2 1) := by
  have hunit : norm3 ((1 : ℝ), (0 : ℝ), (0 : ℝ)) = 1 := by
    norm_num [norm3, Real.sqrt_one]
  refine ⟨by norm_num, hunit, ?_⟩
  have happ := (C8_estimate_cases 2
    (fun j : Fin 2 => if j = 0 then ((1 : ℝ), (0 : ℝ), (0 : ℝ)) else ((0 : ℝ), (1 : ℝ), (0 : ℝ)))
    (fun j : Fin 2 => if j = 0 then (2 : ℝ) else 0)).2.2 0 2 (by norm_num)
    (by simp) (fun j hj => by simp [hj]) (by simpa using hunit)
  simpa using happ

/-! ## FeatureExtractor hysteresis lemmas (claim C3) -/

/-- One frame is emitted per processed window. -/
theorem emitSeq_length (sr : ℝ) (vecs : Fin (n + 1) → Vec3) :
    ∀ (ws : List (Fin (n + 1) → List ℝ)) (st : FEState n),
      (emitSeq sr vecs st ws).2.length = ws.length := by
  intro ws
  induction ws with
  | nil => intro st; simp [emitSeq]
  | cons w ws ih => intro st; simp [emitSeq, ih]

/-- The extractor state after an emission is exactly the emitted frame's
`noise_rms` and `present` fields (`self.noise_tracker.level` was just
set to the copy stored in the frame, and `self.last_present` to the
frame's flag). -/
theorem emitFrame_state_eq (sr : ℝ) (vecs : Fin (n + 1) → Vec3) (st : FEState n)
    (window : Fin (n + 1) → List ℝ) :
    (emitFrame sr vecs st window).1 =
      ⟨(emitFrame sr vecs st window).2.noise_rms,
       (emitFrame sr vecs st window).2.present⟩ := rfl

/-- The first emitted frame comes from the initial state. -/
theorem emitSeq_get_zero (sr : ℝ) (vecs : Fin (n + 1) → Vec3)
    (ws : List (Fin (n + 1) → List ℝ)) (st : FEState n)
    (h : 0 < (emitSeq sr vecs st ws).2.length) :
    (emitSeq sr vecs st ws).2.get ⟨0, h⟩ =
      (emitFrame sr vecs st (ws.get ⟨0, by simpa [emitSeq_length] using h⟩)).2 := by
  cases ws with
  | nil => simp [emitSeq] at h
  | cons w ws => simp [emitSeq]

/-- Frame `k+1` is emitted from the state recorded in frame `k`. -/
theorem emitSeq_get_succ (sr : ℝ) (vecs : Fin (n + 1) → Vec3) :
    ∀ (ws : List (Fin (n + 1) → List ℝ)) (st : FEState n) (k : Nat)
      (hk : k + 1 < (emitSeq sr vecs st ws).2.length),
      (emitSeq sr vecs st ws).2.get ⟨k + 1, hk⟩ =
        (emitFrame sr vecs
          ⟨((emitSeq sr vecs st ws).2.get ⟨k, by omega⟩).noise_rms,
           ((emitSeq sr vecs st ws).2.get ⟨k, by omega⟩).present⟩
          (ws.get ⟨k + 1, by simpa [emitSeq_length] using hk⟩)).2 := by
  intro ws
  induction ws with
  | nil => intro st k hk; simp [emitSeq] at hk
  | cons w ws ih =>
    intro st k hk
    cases k with
    | zero =>
      have h1 : 0 < (emitSeq sr vecs (emitFrame sr vecs st w).1 ws).2.length := by
        rw [emitSeq_length] at hk ⊢
        simp only [List.length_cons] at hk
        omega
      exact emitSeq_get_zero sr vecs ws (emitFrame sr vecs st w).1 h1
    | succ m =>
      have hm : m + 1 < (emitSeq sr vecs (emitFrame sr vecs st w).1 ws).2.length := by
        rw [emitSeq_length] at hk ⊢
        simp only [List.length_cons] at hk
        omega
      exact ih (emitFrame sr vecs st w).1 m hm

/-- Frame emission keeps the noise levels nonnegative (the RMS is a
square root; the tracker mixes with coefficients 0.99 and 0.01). -/
theorem emitFrame_noise_nonneg (sr : ℝ) (vecs : Fin (n + 1) → Vec3) (st : FEState n)
    (window : Fin (n + 1) → List ℝ) (h : ∀ c, 0 ≤ st.noise c) :
    ∀ c, 0 ≤ (emitFrame sr vecs st window).2.noise_rms c := by
  intro c
  simp only [emitFrame, noiseUpdate]
  split_ifs
  · exact h c
  · exact add_nonneg (mul_nonneg (by norm_num) (h c))
      (mul_nonneg (by norm_num) (Real.sqrt_nonneg _))

/-- Every emitted frame records nonnegative noise levels, given a
nonnegative initial tracker state. -/
theorem emitSeq_noise_nonneg (sr : ℝ) (vecs : Fin (n + 1) → Vec3)
    (ws : List (Fin (n + 1) → List ℝ)) (st : FEState n) (h0 : ∀ c, 0 ≤ st.noise c) :
    ∀ (k : Nat) (hk : k < (emitSeq sr vecs st ws).2.length) (c : Fin (n + 1)),
      0 ≤ ((emitSeq sr vecs st ws).2.get ⟨k, hk⟩).noise_rms c := by
  intro k
  induction k with
  | zero =>
    intro hk c
    rw [emitSeq_get_zero sr vecs ws st hk]
    exact emitFrame_noise_nonneg sr vecs st _ h0 c
  | succ m ihm =>
    intro hk c
    rw [emitSeq_get_succ sr vecs ws st m hk]
    refine emitFrame_noise_nonneg sr vecs _ _ ?_ c
    intro c2
    exact ihm (by omega) c2

/-- C3.  For every emitted frame, with `noise_sum` the sum of the
noise-tracker levels at decision time (the previous frame's recorded
`noise_rms`, or the initial levels for the first frame) plus `1e-6`:
`present = total_energy > 3.5·noise_sum ∨ (previous present ∧
total_energy > 3.0·noise_sum)`.  Hence (for nonnegative initial noise)
with the previous frame not detecting, `present` turns on exactly when
the energy exceeds the high threshold, and with the previous frame
detecting, `present` stays on exactly while the energy exceeds the low
threshold — the hysteresis of the spec. -/
theorem C3_present_hysteresis (n : Nat) (sr : ℝ) (vecs : Fin (n + 1) → Vec3)
    (st : FEState n) (ws : List (Fin (n + 1) → List ℝ)) (h0 : ∀ c, 0 ≤ st.noise c) :
    (∀ (h : 0 < (emitSeq sr vecs st ws).2.length),
      (((emitSeq sr vecs st ws).2.get ⟨0, h⟩).present ↔
        (((emitSeq sr vecs st ws).2.get ⟨0, h⟩).total_energy >
            ((∑ c, st.noise c) + 1 / 1000000) * 3.5 ∨
         (st.lastPresent ∧ ((emitSeq sr vecs st ws).2.get ⟨0, h⟩).total_energy >
            ((∑ c, st.noise c) + 1 / 1000000) * 3.0)))) ∧
    (∀ (k : Nat) (hk : k + 1 < (emitSeq sr vecs st ws).2.length),
      (((emitSeq sr vecs st ws).2.get ⟨k + 1, hk⟩).present ↔
        (((emitSeq sr vecs st ws).2.get ⟨k + 1, hk⟩).total_energy >
            ((∑ c, ((emitSeq sr vecs st ws).2.get ⟨k, by omega⟩).noise_rms c) + 1 / 1000000) * 3.5 ∨
         (((emitSeq sr vecs st ws).2.get ⟨k, by omega⟩).present ∧
          ((emitSeq sr vecs st ws).2.get ⟨k + 1, hk⟩).total_energy >
            ((∑ c, ((emitSeq sr vecs st ws).2.get ⟨k, by omega⟩).noise_rms c) + 1 / 1000000) * 3.0))) ∧
      (¬ ((emitSeq sr vecs st ws).2.get ⟨k, by omega⟩).present →
        (((emitSeq sr vecs st ws).2.get ⟨k + 1, hk⟩).present ↔
          ((emitSeq sr vecs st ws).2.get ⟨k + 1, hk⟩).total_energy >
            ((∑ c, ((emitSeq sr vecs st ws).2.get ⟨k, by omega⟩).noise_rms c) + 1 / 1000000) * 3.5)) ∧
      (((emitSeq sr vecs st ws).2.get ⟨k, by omega⟩).present →
        (((emitSeq sr vecs st ws).2.get ⟨k + 1, hk⟩).present ↔
          ((emitSeq sr vecs st ws).2.get ⟨k + 1, hk⟩).total_energy >
            ((∑ c, ((emitSeq sr vecs st ws).2.get ⟨k, by omega⟩).noise_rms c) + 1 / 1000000) * 3.0))) := by
  constructor
  · intro h
    rw [emitSeq_get_zero sr vecs ws st h]
    simp only [emitFrame]
  · intro k hk
    have hbase :
        (((emitSeq sr vecs st ws).2.get ⟨k + 1, hk⟩).present ↔
          (((emitSeq sr vecs st ws).2.get ⟨k + 1, hk⟩).total_energy >
              ((∑ c, ((emitSeq sr vecs st ws).2.get ⟨k, by omega⟩).noise_rms c) + 1 / 1000000) * 3.5 ∨
           (((emitSeq sr vecs st ws).2.get ⟨k, by omega⟩).present ∧
            ((emitSeq sr vecs st ws).2.get ⟨k + 1, hk⟩).total_energy >
              ((∑ c, ((emitSeq sr vecs st ws).2.get ⟨k, by omega⟩).noise_rms c) + 1 / 1000000) * 3.0))) := by
      rw [emitSeq_get_succ sr vecs ws st k hk]
      simp only [emitFrame]
    have hns : (0 : ℝ) ≤ (∑ c, ((emitSeq sr vecs st ws).2.get ⟨k, by omega⟩).noise_rms c) + 1 / 1000000 := by
      have hsum : (0 : ℝ) ≤ ∑ c, ((emitSeq sr vecs st ws).2.get ⟨k, by omega⟩).noise_rms c :=
        Finset.sum_nonneg (fun c _ => emitSeq_noise_nonneg sr vecs ws st h0 k (by omega) c)
      positivity
    refine ⟨hbase, ?_, ?_⟩
    · intro hg
      rw [hbase]
      constructor
      · intro h
        rcases h with h | h
        · exact h
        · exact absurd h.1 hg
      · intro h
        exact Or.inl h
    · intro hg
      rw [hbase]
      constructor
      · intro h
        rcases h with h | h
        · refine lt_of_le_of_lt ?_ h
          have h35 : ((∑ c, ((emitSeq sr vecs st ws).2.get ⟨k, by omega⟩).noise_rms c) + 1 / 1000000) * 3.0
              ≤ ((∑ c, ((emitSeq sr vecs st ws).2.get ⟨k, by omega⟩).noise_rms c) + 1 / 1000000) * 3.5 := by
            nlinarith [hns]
          exact h35
        · exact h.2
      · intro h
        exact Or.inr ⟨hg, h⟩

/-- C3 witness: one channel, zero initial noise floor, a single window
holding the sample 3. -/
theorem C3_present_hysteresis_witness :
    (∀ c, 0 ≤ stEx.noise c) ∧
    (∀ (h : 0 < (emitSeq 1 vecsEx stEx wsEx).2.length),
      (((emitSeq 1 vecsEx stEx wsEx).2.get ⟨0, h⟩).present ↔
        (((emitSeq 1 vecsEx stEx wsEx).2.get ⟨0, h⟩).total_energy >
            ((∑ c, stEx.noise c) + 1 / 1000000) * 3.5 ∨
         (stEx.lastPresent ∧ ((emitSeq 1 vecsEx stEx wsEx).2.get ⟨0, h⟩).total_energy >
            ((∑ c, stEx.noise c) + 1 / 1000000) * 3.0)))) :=
  ⟨fun _ => le_refl 0, (C3_present_hysteresis 0 1 vecsEx stEx wsEx (fun _ => le_refl 0)).1⟩

/-! ## Grid search lemmas (claim C7) -/

/-- `arange` with a positive step is strictly increasing. -/
theorem arange_pairwise_lt (a b s : ℚ) (hs : 0 < s) :
    (arange a b s).Pairwise (· < ·) := by
  unfold arange
  refine List.Pairwise.map _ ?_ (List.pairwise_lt_range _)
  intro i j hij
  have hq : (i : ℚ) < (j : ℚ) := by exact_mod_cast hij
  have := mul_lt_mul_of_pos_left hq hs
  linarith

/-- The search-loop accumulator always holds the first minimum of the
points folded so far (initial best `q`): characterization of one
`foldl` pass of `_grid_search`'s loop. -/
theorem searchFoldAux (f : QPoint → ℝ) :
    ∀ (l : List QPoint) (q : QPoint),
      ∃ (i : Nat) (hi : i < (q :: l).length),
        (l.foldl (fun best p =>
            match best with
            | none => some (p, f p)
            | some be => if f p < be.2 then some (p, f p) else best)
          (some (q, f q))) = some ((q :: l).get ⟨i, hi⟩, f ((q :: l).get ⟨i, hi⟩)) ∧
        (∀ x ∈ q :: l, f ((q :: l).get ⟨i, hi⟩) ≤ f x) ∧
        (∀ j (hj : j < i), f ((q :: l).get ⟨j, by omega⟩) > f ((q :: l).get ⟨i, hi⟩)) := by
  intro l
  induction l with
  | nil =>
    intro q
    refine ⟨0, by simp, by simp, ?_, ?_⟩
    · intro x hx
      rw [List.mem_singleton.mp hx]
      simp
    · intro j hj
      omega
  | cons x xs ih =>
    intro q
    by_cases hx : f x < f q
    · obtain ⟨i, hi, heq, hmin, hfirst⟩ := ih x
      refine ⟨i + 1, by simpa using hi, ?_, ?_, ?_⟩
      · rw [List.foldl_cons]
        simpa [hx] using heq
      · intro y hy
        rcases List.mem_cons.mp hy with hyq | hy2
        · rw [hyq]
          exact le_of_lt (lt_of_le_of_lt (hmin x (List.mem_cons_self x xs)) hx)
        · exact hmin y hy2
      · intro j hj
        cases j with
        | zero => exact lt_of_le_of_lt (hmin x (List.mem_cons_self x xs)) hx
        | succ m => exact hfirst m (by omega)
    · obtain ⟨i, hi, heq, hmin, hfirst⟩ := ih q
      have hqx : f q ≤ f x := le_of_not_lt hx
      cases i with
      | zero =>
        refine ⟨0, by simp, ?_, ?_, ?_⟩
        · rw [List.foldl_cons]
          simpa [hx] using heq
        · intro y hy
          rcases List.mem_cons.mp hy with hyq | hy2
          · rw [hyq]
            exact le_refl _
          · rcases List.mem_cons.mp hy2 with hyx | hy3
            · rw [hyx]
              exact hqx
            · exact hmin y (List.mem_cons_of_mem q hy3)
        · intro j hj
          omega
      | succ m =>
        refine ⟨m + 2, by simpa using hi, ?_, ?_, ?_⟩
        · rw [List.foldl_cons]
          simpa [hx] using heq
        · intro y hy
          rcases List.mem_cons.mp hy with hyq | hy2
          · rw [hyq]
            exact hmin q (List.mem_cons_self q xs)
          · rcases List.mem_cons.mp hy2 with hyx | hy3
            · rw [hyx]
              exact le_of_lt (lt_of_lt_of_le (hfirst 0 (by omega)) hqx)
            · exact hmin y (List.mem_cons_of_mem q hy3)
        · intro j hj
          cases j with
          | zero => exact hfirst 0 (by omega)
          | succ jm =>
            cases jm with
            | zero => exact lt_of_lt_of_le (hfirst 0 (by omega)) hqx
            | succ jn => exact hfirst (jn + 1) (by omega)

/-- Every `arange` element lies in `[a, b)`. -/
theorem arange_mem_bounds (a b s : ℚ) (hs : 0 < s) (x : ℚ) (hx : x ∈ arange a b s) :
    a ≤ x ∧ x < b := by
  unfold arange at hx
  obtain ⟨k, hk, rfl⟩ := List.mem_map.mp hx
  have hk2 : (k : ℤ) < ⌈(b - a) / s⌉ := by
    have := List.mem_range.mp hk
    omega
  constructor
  · have h0 : (0 : ℚ) ≤ (k : ℚ) := Nat.cast_nonneg k
    nlinarith
  · have hcq : ((k : ℚ) + 1) ≤ (⌈(b - a) / s⌉ : ℚ) := by exact_mod_cast hk2
    have hlt : (⌈(b - a) / s⌉ : ℚ) < (b - a) / s + 1 := Int.ceil_lt_add_one _
    have hkq : (k : ℚ) < (b - a) / s := by linarith
    have hmul := mul_lt_mul_of_pos_left hkq hs
    have hcancel : s * ((b - a) / s) = b - a := by
      field_simp
    rw [hcancel] at hmul
    linarith

/-- Every grid point lies in the half-open box
`[lo, hi + step)` on each axis (the `arange` upper endpoint is
`hi + step`). -/
theorem gridPoints_mem_box (xb yb zb : ℚ × ℚ) (step : ℚ) (hs : 0 < step)
    (p : QPoint) (hp : p ∈ gridPoints xb yb zb step) :
    (xb.1 ≤ p.1 ∧ p.1 < xb.2 + step) ∧ (yb.1 ≤ p.2.1 ∧ p.2.1 < yb.2 + step) ∧
    (zb.1 ≤ p.2.2 ∧ p.2.2 < zb.2 + step) := by
  unfold gridPoints at hp
  obtain ⟨x, hxm, hp1⟩ := List.mem_flatMap.mp hp
  obtain ⟨y, hym, hp2⟩ := List.mem_flatMap.mp hp1
  obtain ⟨z, hzm, rfl⟩ := List.mem_map.mp hp2
  exact ⟨arange_mem_bounds _ _ _ hs x hxm, arange_mem_bounds _ _ _ hs y hym,
    arange_mem_bounds _ _ _ hs z hzm⟩

/-- The grid enumeration is strictly ascending in the lexicographic
order with `x` outermost and `z` innermost. -/
theorem gridPoints_pairwise_lex (xb yb zb : ℚ × ℚ) (step : ℚ) (hs : 0 < step) :
    (gridPoints xb yb zb step).Pairwise pointLexLt := by
  unfold gridPoints
  rw [List.pairwise_flatMap]
  constructor
  · intro x hx
    rw [List.pairwise_flatMap]
    constructor
    · intro y hy
      rw [List.pairwise_map]
      refine (arange_pairwise_lt _ _ _ hs).imp ?_
      intro z1 z2 hz
      exact Or.inr ⟨rfl, Or.inr ⟨rfl, hz⟩⟩
    · refine (arange_pairwise_lt _ _ _ hs).imp ?_
      intro y1 y2 hy p hp q hq
      obtain ⟨z1, hz1, rfl⟩ := List.mem_map.mp hp
      obtain ⟨z2, hz2, rfl⟩ := List.mem_map.mp hq
      exact Or.inr ⟨rfl, Or.inl hy⟩
  · refine (arange_pairwise_lt _ _ _ hs).imp ?_
    intro x1 x2 hx p hp q hq
    obtain ⟨y1, hy1, hp2⟩ := List.mem_flatMap.mp hp
    obtain ⟨z1, hz1, rfl⟩ := List.mem_map.mp hp2
    obtain ⟨y2, hy2, hq2⟩ := List.mem_flatMap.mp hq
    obtain ⟨z2, hz2, rfl⟩ := List.mem_map.mp hq2
    exact Or.inl hx

/-- The grid is exactly the lattice `lo + step·index` on each axis,
indexed in row-major (`x`, then `y`, then `z`) ascending order. -/
theorem gridPoints_eq_lattice (xb yb zb : ℚ × ℚ) (step : ℚ) :
    gridPoints xb yb zb step =
      (List.range (⌈(xb.2 + step - xb.1) / step⌉).toNat).flatMap (fun i =>
        (List.range (⌈(yb.2 + step - yb.1) / step⌉).toNat).flatMap (fun j =>
          (List.range (⌈(zb.2 + step - zb.1) / step⌉).toNat).map (fun k =>
            (xb.1 + step * ((i : Nat) : ℚ), yb.1 + step * ((j : Nat) : ℚ),
             zb.1 + step * ((k : Nat) : ℚ))))) := by
  unfold gridPoints arange
  rw [List.flatMap_map]
  congr 1
  funext i
  rw [List.flatMap_map]
  congr 1
  funext j
  rw [List.map_map]
  rfl

/-- `_grid_search` returns the first enumerated candidate attaining the
minimum cost, together with that cost. -/
theorem gridSearchBy_first_argmin (f : QPoint → ℝ) (pts : List QPoint) (hne : pts ≠ []) :
    ∃ (i : Nat) (hi : i < pts.length),
      gridSearchBy f pts = some (pts.get ⟨i, hi⟩, f (pts.get ⟨i, hi⟩)) ∧
      (∀ q ∈ pts, f (pts.get ⟨i, hi⟩) ≤ f q) ∧
      (∀ j (hj : j < i), f (pts.get ⟨j, by omega⟩) > f (pts.get ⟨i, hi⟩)) := by
  cases pts with
  | nil => exact absurd rfl hne
  | cons p rest =>
    obtain ⟨i, hi, heq, hmin, hfirst⟩ := searchFoldAux f rest p
    exact ⟨i, hi, by simpa [gridSearchBy] using heq, hmin, hfirst⟩

/-- C7.  The coarse grid search: (1) the candidate list is exactly the
lattice `lo + step·index` over the configured box, row-major with `x`
outermost, `y` middle, `z` innermost, each axis ascending —
equivalently (2) the enumeration is strictly increasing for the
lexicographic order `pointLexLt`, and (3) every candidate lies in the
configured half-open box `[lo, hi + step)` per axis; (4)
`_grid_search` is the accumulator loop over exactly this list with the
`_point_error` cost; and (5) for any cost function the loop returns the
first enumerated point attaining the minimum cost, together with that
minimum (strict-improvement updates keep the earliest minimum on
ties). -/
theorem C7_grid_search_enumeration_and_first_min (cfg : FusionConfig)
    (frames : List (Int × Frame)) (normalized : List (Int × ℝ))
    (hs : 0 < cfg.grid_step)
    (hne : gridPoints cfg.xb cfg.yb cfg.zb cfg.grid_step ≠ []) :
    (gridPoints cfg.xb cfg.yb cfg.zb cfg.grid_step =
      (List.range (⌈(cfg.xb.2 + cfg.grid_step - cfg.xb.1) / cfg.grid_step⌉).toNat).flatMap (fun i =>
        (List.range (⌈(cfg.yb.2 + cfg.grid_step - cfg.yb.1) / cfg.grid_step⌉).toNat).flatMap (fun j =>
          (List.range (⌈(cfg.zb.2 + cfg.grid_step - cfg.zb.1) / cfg.grid_step⌉).toNat).map (fun k =>
            (cfg.xb.1 + cfg.grid_step * ((i : Nat) : ℚ),
             cfg.yb.1 + cfg.grid_step * ((j : Nat) : ℚ),
             cfg.zb.1 + cfg.grid_step * ((k : Nat) : ℚ)))))) ∧
    (gridPoints cfg.xb cfg.yb cfg.zb cfg.grid_step).Pairwise pointLexLt ∧
    (∀ p ∈ gridPoints cfg.xb cfg.yb cfg.zb cfg.grid_step,
      (cfg.xb.1 ≤ p.1 ∧ p.1 < cfg.xb.2 + cfg.grid_step) ∧
      (cfg.yb.1 ≤ p.2.1 ∧ p.2.1 < cfg.yb.2 + cfg.grid_step) ∧
      (cfg.zb.1 ≤ p.2.2 ∧ p.2.2 < cfg.zb.2 + cfg.grid_step)) ∧
    gridSearch cfg frames normalized =
      gridSearchBy (pointError cfg frames normalized)
        (gridPoints cfg.xb cfg.yb cfg.zb cfg.grid_step) ∧
    (∀ f : QPoint → ℝ,
      ∃ (i : Nat) (hi : i < (gridPoints cfg.xb cfg.yb cfg.zb cfg.grid_step).length),
        gridSearchBy f (gridPoints cfg.xb cfg.yb cfg.zb cfg.grid_step) =
          some ((gridPoints cfg.xb cfg.yb cfg.zb cfg.grid_step).get ⟨i, hi⟩,
                f ((gridPoints cfg.xb cfg.yb cfg.zb cfg.grid_step).get ⟨i, hi⟩)) ∧
        (∀ q ∈ gridPoints cfg.xb cfg.yb cfg.zb cfg.grid_step,
          f ((gridPoints cfg.xb cfg.yb cfg.zb cfg.grid_step).get ⟨i, hi⟩) ≤ f q) ∧
        (∀ j (hj : j < i),
          f ((gridPoints cfg.xb cfg.yb cfg.zb cfg.grid_step).get ⟨j, by omega⟩) >
            f ((gridPoints cfg.xb cfg.yb cfg.zb cfg.grid_step).get ⟨i, hi⟩))) :=
  ⟨gridPoints_eq_lattice cfg.xb cfg.yb cfg.zb cfg.grid_step,
   gridPoints_pairwise_lex cfg.xb cfg.yb cfg.zb cfg.grid_step hs,
   fun p hp => gridPoints_mem_box cfg.xb cfg.yb cfg.zb cfg.grid_step hs p hp,
   rfl,
   fun f => gridSearchBy_first_argmin f _ hne⟩

/-- C7 witness: the box `x ∈ [0,1]`, `y = z = 0` with step 1 yields the
two-point grid `[(0,0,0), (1,0,0)]`. -/
theorem C7_grid_search_enumeration_and_first_min_witness :
    (0 : ℚ) < cfgEx.grid_step ∧
    gridPoints cfgEx.xb cfgEx.yb cfgEx.zb cfgEx.grid_step = [(0, 0, 0), (1, 0, 0)] ∧
    (gridPoints cfgEx.xb cfgEx.yb cfgEx.zb cfgEx.grid_step).Pairwise pointLexLt := by
  have hs : (0 : ℚ) < cfgEx.grid_step := by norm_num [cfgEx]
  have hgrid : gridPoints cfgEx.xb cfgEx.yb cfgEx.zb cfgEx.grid_step = [(0, 0, 0), (1, 0, 0)] := by
    have htn : Int.toNat 2 = 2 := rfl
    norm_num [cfgEx, gridPoints, arange, htn, List.range_succ, List.range_zero]
  refine ⟨hs, hgrid, ?_⟩
  exact (C7_grid_search_enumeration_and_first_min cfgEx framesEx [] hs
    (by rw [hgrid]; simp)).2.1

/-! ## Byte-codec round-trip lemmas (claims C2, C5) -/

/-- All digit bytes of a natural are in `[48, 57]`, given enough fuel. -/
theorem natBytesAux_digits : ∀ (fuel m : Nat), m < 10 ^ fuel →
    ∀ b ∈ natBytesAux fuel m, 48 ≤ b ∧ b ≤ 57 := by
  intro fuel
  induction fuel with
  | zero =>
    intro m hm b hb
    simp [natBytesAux] at hb
  | succ f ih =>
    intro m hm b hb
    rw [natBytesAux] at hb
    split at hb
    · rename_i h10
      rw [List.mem_singleton.mp hb]
      omega
    · rename_i h10
      rcases List.mem_append.mp hb with h | h
      · refine ih (m / 10) ?_ b h
        have hp : 10 ^ (f + 1) = 10 * 10 ^ f := by ring
        rw [hp] at hm
        exact Nat.div_lt_of_lt_mul hm
      · rw [List.mem_singleton.mp h]
        have := Nat.mod_lt m (show 0 < 10 by norm_num)
        omega

/-- `natBytesAux` is nonempty for positive fuel. -/
theorem natBytesAux_ne_nil (fuel m : Nat) : natBytesAux (fuel + 1) m ≠ [] := by
  rw [natBytesAux]
  split
  · simp
  · simp

/-- Folding the digit-accumulator over the digit bytes recovers the
number (shifted past the accumulated prefix). -/
theorem natBytesAux_foldl : ∀ (fuel m acc : Nat), m < 10 ^ fuel →
    (natBytesAux fuel m).foldl (fun a b => 10 * a + (b - 48)) acc =
      acc * 10 ^ (natBytesAux fuel m).length + m := by
  intro fuel
  induction fuel with
  | zero =>
    intro m acc hm
    simp [natBytesAux]
    omega
  | succ f ih =>
    intro m acc hm
    rw [natBytesAux]
    split
    · rename_i h10
      simp [List.foldl_cons]
      omega
    · rename_i h10
      have hdiv : m / 10 < 10 ^ f := by
        have hp : 10 ^ (f + 1) = 10 * 10 ^ f := by ring
        rw [hp] at hm
        exact Nat.div_lt_of_lt_mul hm
      rw [List.foldl_append, ih (m / 10) acc hdiv]
      simp [List.length_append]
      have hmod := Nat.mod_lt m (show 0 < 10 by norm_num)
      have hdm := Nat.div_add_mod m 10
      rw [pow_succ]
      ring_nf
      omega

/-- Every natural is below `10 ^ (m + 1)`. -/
theorem lt_ten_pow_succ (m : Nat) : m < 10 ^ (m + 1) := by
  have h := Nat.lt_pow_self (show 1 < 10 by norm_num) m
  exact lt_of_lt_of_le h (Nat.pow_le_pow_right (by norm_num) (by omega))

/-- Every byte of `natBytes m` is a decimal digit byte. -/
theorem natBytes_digits (m : Nat) : ∀ b ∈ natBytes m, 48 ≤ b ∧ b ≤ 57 :=
  natBytesAux_digits (m + 1) m (lt_ten_pow_succ m)

/-- `natBytes` is never empty. -/
theorem natBytes_ne_nil (m : Nat) : natBytes m ≠ [] := natBytesAux_ne_nil m m

/-- Folding the digit accumulator from 0 over `natBytes m` gives `m`. -/
theorem natBytes_foldl (m : Nat) :
    (natBytes m).foldl (fun a b => 10 * a + (b - 48)) 0 = m := by
  have := natBytesAux_foldl (m + 1) m 0 (lt_ten_pow_succ m)
  simpa using this

/-- `takeWhile`/`dropWhile` split an append exactly at a satisfying
prefix followed by a failing (or absent) head. -/
theorem takeWhile_dropWhile_append (p : Nat → Bool) :
    ∀ (xs rest : List Nat), (∀ x ∈ xs, p x = true) →
      (∀ b, rest.head? = some b → p b = false) →
      (xs ++ rest).takeWhile p = xs ∧ (xs ++ rest).dropWhile p = rest := by
  intro xs
  induction xs with
  | nil =>
    intro rest hall hstop
    cases rest with
    | nil => simp
    | cons b t =>
      have hb : p b = false := hstop b rfl
      simp [List.takeWhile_cons, List.dropWhile_cons, hb]
  | cons x xs ih =>
    intro rest hall hstop
    have hx : p x = true := hall x (List.mem_cons_self x xs)
    have := ih rest (fun y hy => hall y (List.mem_cons_of_mem x hy)) hstop
    simp [List.takeWhile_cons, List.dropWhile_cons, hx, this.1, this.2]

/-- `parseDigits` inverts `natBytes` whenever the remainder does not
begin with another digit. -/
theorem parseDigits_natBytes (m : Nat) (rest : List Nat)
    (hstop : ∀ b, rest.head? = some b → isDigitByte b = false) :
    parseDigits (natBytes m ++ rest) = some (m, rest) := by
  have hall : ∀ x ∈ natBytes m, isDigitByte x = true := by
    intro x hx
    have := natBytes_digits m x hx
    unfold isDigitByte
    simp only [Bool.and_eq_true, decide_eq_true_eq]
    omega
  have hsplit := takeWhile_dropWhile_append isDigitByte (natBytes m) rest hall hstop
  unfold parseDigits
  rw [hsplit.1, hsplit.2]
  have hne : (natBytes m).isEmpty = false := by
    cases h : natBytes m with
    | nil => exact absurd h (natBytes_ne_nil m)
    | cons a t => rfl
  simp only [hne, if_false, Bool.false_eq_true]
  rw [natBytes_foldl]

/-- `parseInt` inverts `encInt` whenever the remainder does not begin
with a digit. -/
theorem parseInt_encInt (n : Int) (rest : List Nat)
    (hstop : ∀ b, rest.head? = some b → isDigitByte b = false) :
    parseInt (encInt n ++ rest) = some (n, rest) := by
  unfold encInt
  split
  · rename_i hneg
    have h1 : parseInt ((45 :: natBytes n.natAbs) ++ rest) =
        (parseDigits (natBytes n.natAbs ++ rest)).map (fun p => (-(p.1 : Int), p.2)) := rfl
    rw [h1, parseDigits_natBytes n.natAbs rest hstop]
    simp only [Option.map_some']
    rw [show -((n.natAbs : Int)) = n by omega]
  · rename_i hneg
    obtain ⟨b, t, hbt⟩ := List.exists_cons_of_ne_nil (natBytes_ne_nil n.toNat)
    have hb : 48 ≤ b ∧ b ≤ 57 := natBytes_digits n.toNat b (by rw [hbt]; exact List.mem_cons_self b t)
    rw [hbt]
    have hmatch : parseInt (b :: (t ++ rest)) =
        (parseDigits (b :: (t ++ rest))).map (fun p => ((p.1 : Int), p.2)) := by
      unfold parseInt
      split
      · rename_i rest2 heq
        injection heq with h1 h2
        omega
      · rfl
    rw [List.cons_append, hmatch, ← List.cons_append, ← hbt,
      parseDigits_natBytes n.toNat rest hstop]
    simp only [Option.map_some']
    rw [show ((n.toNat : Int)) = n by omega]

/-- `parseStrBytes` inverts the string serializer on quote-free
content. -/
theorem parseStrBytes_enc (s rest : List Nat) (hs : ∀ b ∈ s, b ≠ 34) :
    parseStrBytes ((34 :: s ++ [34]) ++ rest) = some (s, rest) := by
  have hall : ∀ x ∈ s, (x != 34) = true := by
    intro x hx
    simpa using hs x hx
  have hstop : ∀ b, (34 :: rest).head? = some b → (b != 34) = false := by
    intro b hb
    simp only [List.head?_cons, Option.some.injEq] at hb
    simp [← hb]
  have hsplit := takeWhile_dropWhile_append (fun b => b != 34) s (34 :: rest) hall hstop
  have hform : (34 :: s ++ [34]) ++ rest = 34 :: (s ++ (34 :: rest)) := by
    simp
  rw [hform]
  show (match (s ++ 34 :: rest).dropWhile (fun b => b != 34) with
       | 34 :: tail => some ((s ++ 34 :: rest).takeWhile (fun b => b != 34), tail)
       | _ => none) = some (s, rest)
  rw [hsplit.2, hsplit.1]

/-- `encInt` is never empty. -/
theorem encInt_ne_nil (n : Int) : encInt n ≠ [] := by
  unfold encInt
  split
  · simp
  · exact natBytes_ne_nil n.toNat

/-- `encInt` starts with a minus sign or a digit byte. -/
theorem encInt_head (n : Int) :
    ∃ b t, encInt n = b :: t ∧ (b = 45 ∨ (48 ≤ b ∧ b ≤ 57)) := by
  unfold encInt
  split
  · exact ⟨45, natBytes n.natAbs, rfl, Or.inl rfl⟩
  · obtain ⟨b, t, hbt⟩ := List.exists_cons_of_ne_nil (natBytes_ne_nil n.toNat)
    refine ⟨b, t, hbt, Or.inr ?_⟩
    exact natBytes_digits n.toNat b (by rw [hbt]; exact List.mem_cons_self b t)

/-- The joined items are at least as long as the item list (up to the
closing byte). -/
theorem joinSep_encInt_length : ∀ (xs : List Int),
    xs.length ≤ (joinSep [44] (xs.map encInt)).length + 1 := by
  intro xs
  induction xs with
  | nil => simp [joinSep]
  | cons x tail ih =>
    cases tail with
    | nil => simp [joinSep]
    | cons y t =>
      have hj : joinSep [44] ((x :: y :: t).map encInt) =
          encInt x ++ [44] ++ joinSep [44] ((y :: t).map encInt) := rfl
      rw [hj]
      simp only [List.length_append, List.length_cons, List.length_map] at ih ⊢
      omega

/-- `parseArrItems` inverts the joined nonempty item serialization. -/
theorem parseArrItems_enc : ∀ (xs : List Int) (fuel : Nat) (rest : List Nat),
    xs ≠ [] → xs.length ≤ fuel →
    parseArrItems fuel (joinSep [44] (xs.map encInt) ++ 93 :: rest) = some (xs, rest) := by
  intro xs
  induction xs with
  | nil => intro fuel rest hne; exact absurd rfl hne
  | cons x tail ih =>
    intro fuel rest hne hlen
    cases fuel with
    | zero => simp at hlen
    | succ f =>
      cases tail with
      | nil =>
        have hj : joinSep [44] ([x].map encInt) = encInt x := rfl
        rw [hj]
        have hp := parseInt_encInt x (93 :: rest)
          (by intro b hb; simp only [List.head?_cons, Option.some.injEq] at hb; subst hb; rfl)
        rw [parseArrItems, hp]
      | cons y t =>
        have hj : joinSep [44] ((x :: y :: t).map encInt) =
            encInt x ++ [44] ++ joinSep [44] ((y :: t).map encInt) := rfl
        have hform : joinSep [44] ((x :: y :: t).map encInt) ++ 93 :: rest =
            encInt x ++ (44 :: (joinSep [44] ((y :: t).map encInt) ++ 93 :: rest)) := by
          rw [hj]; simp
        rw [hform]
        have hp := parseInt_encInt x (44 :: (joinSep [44] ((y :: t).map encInt) ++ 93 :: rest))
          (by intro b hb; simp only [List.head?_cons, Option.some.injEq] at hb; subst hb; rfl)
        rw [parseArrItems, hp]
        have hih := ih f rest (by simp) (by simp at hlen ⊢; omega)
        simp only [hih, Option.map_some']

/-- `parseArr` inverts the array serializer. -/
theorem parseArr_enc (xs : List Int) (rest : List Nat) :
    parseArr ((91 :: joinSep [44] (xs.map encInt) ++ [93]) ++ rest) = some (xs, rest) := by
  cases xs with
  | nil =>
    show parseArr ((91 :: joinSep [44] ([] : List (List Nat)) ++ [93]) ++ rest) = some ([], rest)
    simp only [joinSep]
    rfl
  | cons x tail =>
    obtain ⟨b, t, hbt, hb⟩ := encInt_head x
    have hjoin : joinSep [44] ((x :: tail).map encInt) =
        b :: (t ++ (match tail with
          | [] => []
          | _ :: _ => 44 :: joinSep [44] (tail.map encInt))) := by
      cases tail with
      | nil => simpa [joinSep] using hbt
      | cons y ys =>
        show encInt x ++ [44] ++ joinSep [44] ((y :: ys).map encInt) = _
        rw [hbt]
        simp
    have hform : (91 :: joinSep [44] ((x :: tail).map encInt) ++ [93]) ++ rest =
        91 :: (joinSep [44] ((x :: tail).map encInt) ++ 93 :: rest) := by
      simp
    rw [hform]
    have hlen : (x :: tail).length ≤ (joinSep [44] ((x :: tail).map encInt) ++ 93 :: rest).length := by
      have := joinSep_encInt_length (x :: tail)
      simp only [List.length_append, List.length_cons] at this ⊢
      omega
    have hitems := parseArrItems_enc (x :: tail)
      ((joinSep [44] ((x :: tail).map encInt) ++ 93 :: rest).length) rest (by simp) hlen
    have hb93 : b ≠ 93 := by omega
    rw [hjoin]
    rw [hjoin] at hitems
    unfold parseArr
    split
    · rename_i r heq
      rw [List.cons.injEq] at heq
      obtain ⟨-, heq2⟩ := heq
      injection heq2 with hh _
      exact absurd hh hb93
    · rename_i r heq
      rw [List.cons.injEq] at heq
      obtain ⟨-, heq2⟩ := heq
      rw [← heq2]
      exact hitems
    · rename_i hno1 hno2
      exact (hno2 _ rfl).elim

/-- `parseAtom` inverts the leaf serializer on well-formed leaves when
the remainder does not begin with a digit. -/
theorem parseAtom_enc (a : JAtom) (rest : List Nat) (hwf : wfAtom a)
    (hstop : ∀ b, rest.head? = some b → isDigitByte b = false) :
    parseAtom (encAtom a ++ rest) = some (a, rest) := by
  cases a with
  | jint n =>
    obtain ⟨b, t, hbt, hb⟩ := encInt_head n
    have henc : encAtom (JAtom.jint n) = b :: t := hbt
    rw [henc, List.cons_append]
    unfold parseAtom
    split
    · rename_i heq
      injection heq with hh _
      rcases hb with h45 | hdig <;> omega
    · rename_i heq
      injection heq with hh _
      rcases hb with h45 | hdig <;> omega
    · rename_i heq
      injection heq with hh _
      rcases hb with h45 | hdig <;> omega
    · rename_i heq
      injection heq with hh _
      rcases hb with h45 | hdig <;> omega
    · rename_i heq
      injection heq with hh _
      rcases hb with h45 | hdig <;> omega
    · rw [← List.cons_append, ← hbt]
      rw [show encInt n = encAtom (JAtom.jint n) from rfl] at hbt ⊢
      rw [show encAtom (JAtom.jint n) = encInt n from rfl, parseInt_encInt n rest hstop]
      rfl
  | jbool bv =>
    cases bv with
    | false => rfl
    | true => rfl
  | jnull => rfl
  | jstr s =>
    have hs34 : ∀ b ∈ s, b ≠ 34 := fun b hbm => (hwf b hbm).2.2.1
    have hps := parseStrBytes_enc s rest hs34
    show parseAtom ((34 :: (s ++ [34])) ++ rest) = some (JAtom.jstr s, rest)
    rw [List.cons_append]
    show (parseStrBytes (34 :: ((s ++ [34]) ++ rest))).map (fun p => (JAtom.jstr p.1, p.2))
        = some (JAtom.jstr s, rest)
    rw [show parseStrBytes (34 :: ((s ++ [34]) ++ rest)) = some (s, rest) from hps]
    rfl
  | jarr xs =>
    have hpa := parseArr_enc xs rest
    show parseAtom ((91 :: (joinSep [44] (xs.map encInt) ++ [93])) ++ rest)
        = some (JAtom.jarr xs, rest)
    rw [List.cons_append]
    show (parseArr (91 :: ((joinSep [44] (xs.map encInt) ++ [93]) ++ rest))).map
        (fun p => (JAtom.jarr p.1, p.2)) = some (JAtom.jarr xs, rest)
    rw [show parseArr (91 :: ((joinSep [44] (xs.map encInt) ++ [93]) ++ rest))
        = some (xs, rest) from hpa]
    rfl

/-- A stop byte at the head of the remainder is not a digit. -/
theorem head_stop (c : Nat) (hc : isDigitByte c = false) (t : List Nat) :
    ∀ b, ((c :: t).head? = some b) → isDigitByte b = false := by
  intro b hb
  simp only [List.head?_cons, Option.some.injEq] at hb
  rw [← hb]
  exact hc

/-- `parseObjItems` inverts the joined nonempty binding serialization of
a leaf-valued object. -/
theorem parseObjItems_enc : ∀ (kvs : List (List Nat × JAtom)) (fuel : Nat) (rest : List Nat),
    kvs ≠ [] → kvs.length ≤ fuel →
    (∀ kv ∈ kvs, wfStr kv.1 ∧ wfAtom kv.2) →
    parseObjItems fuel (joinSep [44] (kvs.map encKVA) ++ 125 :: rest) = some (kvs, rest) := by
  intro kvs
  induction kvs with
  | nil => intro fuel rest hne; exact absurd rfl hne
  | cons kv tail ih =>
    intro fuel rest hne hlen hwf
    obtain ⟨k, v⟩ := kv
    have hk34 : ∀ b ∈ k, b ≠ 34 := fun b hbm =>
      ((hwf (k, v) (List.mem_cons_self _ _)).1 b hbm).2.2.1
    have hwfv : wfAtom v := (hwf (k, v) (List.mem_cons_self _ _)).2
    cases fuel with
    | zero => simp at hlen
    | succ f =>
      cases tail with
      | nil =>
        have hj : joinSep [44] ([(k, v)].map encKVA) = encKVA (k, v) := rfl
        rw [hj]
        have hform : encKVA (k, v) ++ 125 :: rest
            = (34 :: k ++ [34]) ++ (58 :: (encAtom v ++ 125 :: rest)) := by
          show ((34 :: k ++ [34]) ++ 58 :: encAtom v) ++ 125 :: rest = _
          rw [List.append_assoc]
          rfl
        have hstr := parseStrBytes_enc k (58 :: (encAtom v ++ 125 :: rest)) hk34
        have hatom := parseAtom_enc v (125 :: rest) hwfv (head_stop 125 rfl rest)
        rw [hform, parseObjItems]
        simp only [hstr, hatom]
      | cons kv2 t2 =>
        have hj : joinSep [44] (((k, v) :: kv2 :: t2).map encKVA) =
            encKVA (k, v) ++ [44] ++ joinSep [44] ((kv2 :: t2).map encKVA) := rfl
        have hform : joinSep [44] (((k, v) :: kv2 :: t2).map encKVA) ++ 125 :: rest
            = (34 :: k ++ [34]) ++ (58 :: (encAtom v ++
                44 :: (joinSep [44] ((kv2 :: t2).map encKVA) ++ 125 :: rest))) := by
          rw [hj]
          show ((((34 :: k ++ [34]) ++ 58 :: encAtom v) ++ [44]) ++
            joinSep [44] ((kv2 :: t2).map encKVA)) ++ 125 :: rest = _
          rw [List.append_assoc, List.append_assoc, List.append_assoc]
          rfl
        have hstr := parseStrBytes_enc k
          (58 :: (encAtom v ++ 44 :: (joinSep [44] ((kv2 :: t2).map encKVA) ++ 125 :: rest))) hk34
        have hatom := parseAtom_enc v
          (44 :: (joinSep [44] ((kv2 :: t2).map encKVA) ++ 125 :: rest)) hwfv
          (head_stop 44 rfl _)
        have hih := ih f rest (by simp) (by simp at hlen ⊢; omega)
          (fun kv2m hm => hwf kv2m (List.mem_cons_of_mem _ hm))
        rw [hform, parseObjItems]
        simp only [hstr, hatom, hih, Option.map_some']

/-- Joined byte strings are at least as long as the list joined. -/
theorem joinSep_length_ge : ∀ (L : List (List Nat)),
    L.length ≤ (joinSep [44] L).length + 1 := by
  intro L
  induction L with
  | nil => simp [joinSep]
  | cons x tail ih =>
    cases tail with
    | nil => simp [joinSep]
    | cons y t =>
      have hj : joinSep [44] (x :: y :: t) = x ++ [44] ++ joinSep [44] (y :: t) := rfl
      rw [hj]
      simp only [List.length_append, List.length_cons] at ih ⊢
      omega

/-- `encAtom` starts with a byte other than the object braces. -/
theorem encAtom_head (a : JAtom) :
    ∃ b t, encAtom a = b :: t ∧ b ≠ 123 ∧ b ≠ 125 := by
  cases a with
  | jint n =>
    obtain ⟨b, t, hbt, hb⟩ := encInt_head n
    exact ⟨b, t, hbt, by rcases hb with h | h <;> omega, by rcases hb with h | h <;> omega⟩
  | jbool bv => cases bv with
    | true => exact ⟨116, [114, 117, 101], rfl, by omega, by omega⟩
    | false => exact ⟨102, [97, 108, 115, 101], rfl, by omega, by omega⟩
  | jnull => exact ⟨110, [117, 108, 108], rfl, by omega, by omega⟩
  | jstr s => exact ⟨34, s ++ [34], by simp [encAtom], by omega, by omega⟩
  | jarr xs => exact ⟨91, joinSep [44] (xs.map encInt) ++ [93], by simp [encAtom], by omega, by omega⟩

/-- `parseVal` inverts the value serializer on well-formed values when
the remainder does not begin with a digit. -/
theorem parseVal_enc (v : JVal) (rest : List Nat) (hwf : wfVal v)
    (hstop : ∀ b, rest.head? = some b → isDigitByte b = false) :
    parseVal (encVal v ++ rest) = some (v, rest) := by
  cases v with
  | atom a =>
    obtain ⟨b, t, hbt, hb123, hb125⟩ := encAtom_head a
    have henc : encVal (JVal.atom a) = b :: t := hbt
    rw [henc, List.cons_append]
    have hpa := parseAtom_enc a rest hwf hstop
    rw [hbt, List.cons_append] at hpa
    unfold parseVal
    split
    · rename_i heq
      injection heq with hh _
      exact absurd hh hb123
    · rename_i heq
      injection heq with hh _
      exact absurd hh hb123
    · rw [hpa]
      rfl
  | jobj kvs =>
    cases kvs with
    | nil => rfl
    | cons kv tail =>
      obtain ⟨k, v0⟩ := kv
      have hhead : ∃ body, joinSep [44] (((k, v0) :: tail).map encKVA) = 34 :: body := by
        cases tail with
        | nil => exact ⟨(k ++ [34]) ++ 58 :: encAtom v0, by simp [joinSep, encKVA]⟩
        | cons kv2 t2 =>
          refine ⟨(k ++ [34]) ++ (58 :: encAtom v0 ++
            (44 :: joinSep [44] ((kv2 :: t2).map encKVA))), ?_⟩
          show encKVA (k, v0) ++ [44] ++ joinSep [44] ((kv2 :: t2).map encKVA) = _
          simp [encKVA]
      obtain ⟨body, hbody⟩ := hhead
      have hform : encVal (JVal.jobj ((k, v0) :: tail)) ++ rest =
          123 :: (joinSep [44] (((k, v0) :: tail).map encKVA) ++ 125 :: rest) := by
        show (123 :: joinSep [44] (((k, v0) :: tail).map encKVA) ++ [125]) ++ rest = _
        simp
      rw [hform]
      have hlen : ((k, v0) :: tail).length ≤
          (joinSep [44] (((k, v0) :: tail).map encKVA) ++ 125 :: rest).length := by
        have := joinSep_length_ge (((k, v0) :: tail).map encKVA)
        simp only [List.length_append, List.length_cons, List.length_map] at this ⊢
        omega
      have hitems := parseObjItems_enc ((k, v0) :: tail)
        ((joinSep [44] (((k, v0) :: tail).map encKVA) ++ 125 :: rest).length) rest
        (by simp) hlen hwf
      rw [hbody] at hitems ⊢
      unfold parseVal
      split
      · rename_i heq
        rw [List.cons.injEq] at heq
        obtain ⟨-, heq2⟩ := heq
        injection heq2 with hh _
        omega
      · rename_i r heq
        rw [List.cons.injEq] at heq
        obtain ⟨-, heq2⟩ := heq
        rw [← heq2]
        rw [hitems]
        rfl
      · rename_i hno1 hno2
        exact (hno2 _ rfl).elim

/-- `parseTopItems` inverts the joined nonempty binding serialization of
the top-level payload. -/
theorem parseTopItems_enc : ∀ (kvs : List (List Nat × JVal)) (fuel : Nat) (rest : List Nat),
    kvs ≠ [] → kvs.length ≤ fuel →
    (∀ kv ∈ kvs, wfStr kv.1 ∧ wfVal kv.2) →
    parseTopItems fuel (joinSep [44] (kvs.map encKV) ++ 125 :: rest) = some (kvs, rest) := by
  intro kvs
  induction kvs with
  | nil => intro fuel rest hne; exact absurd rfl hne
  | cons kv tail ih =>
    intro fuel rest hne hlen hwf
    obtain ⟨k, v⟩ := kv
    have hk34 : ∀ b ∈ k, b ≠ 34 := fun b hbm =>
      ((hwf (k, v) (List.mem_cons_self _ _)).1 b hbm).2.2.1
    have hwfv : wfVal v := (hwf (k, v) (List.mem_cons_self _ _)).2
    cases fuel with
    | zero => simp at hlen
    | succ f =>
      cases tail with
      | nil =>
        have hj : joinSep [44] ([(k, v)].map encKV) = encKV (k, v) := rfl
        rw [hj]
        have hform : encKV (k, v) ++ 125 :: rest
            = (34 :: k ++ [34]) ++ (58 :: (encVal v ++ 125 :: rest)) := by
          show ((34 :: k ++ [34]) ++ 58 :: encVal v) ++ 125 :: rest = _
          rw [List.append_assoc]
          rfl
        have hstr := parseStrBytes_enc k (58 :: (encVal v ++ 125 :: rest)) hk34
        have hval := parseVal_enc v (125 :: rest) hwfv (head_stop 125 rfl rest)
        rw [hform, parseTopItems]
        simp only [hstr, hval]
      | cons kv2 t2 =>
        have hj : joinSep [44] (((k, v) :: kv2 :: t2).map encKV) =
            encKV (k, v) ++ [44] ++ joinSep [44] ((kv2 :: t2).map encKV) := rfl
        have hform : joinSep [44] (((k, v) :: kv2 :: t2).map encKV) ++ 125 :: rest
            = (34 :: k ++ [34]) ++ (58 :: (encVal v ++
                44 :: (joinSep [44] ((kv2 :: t2).map encKV) ++ 125 :: rest))) := by
          rw [hj]
          show ((((34 :: k ++ [34]) ++ 58 :: encVal v) ++ [44]) ++
            joinSep [44] ((kv2 :: t2).map encKV)) ++ 125 :: rest = _
          rw [List.append_assoc, List.append_assoc, List.append_assoc]
          rfl
        have hstr := parseStrBytes_enc k
          (58 :: (encVal v ++ 44 :: (joinSep [44] ((kv2 :: t2).map encKV) ++ 125 :: rest))) hk34
        have hval := parseVal_enc v
          (44 :: (joinSep [44] ((kv2 :: t2).map encKV) ++ 125 :: rest)) hwfv
          (head_stop 44 rfl _)
        have hih := ih f rest (by simp) (by simp at hlen ⊢; omega)
          (fun kv2m hm => hwf kv2m (List.mem_cons_of_mem _ hm))
        rw [hform, parseTopItems]
        simp only [hstr, hval, hih, Option.map_some']

/-- `parseTop` inverts `encTop` on well-formed payloads. -/
theorem parseTop_enc (kvs : List (List Nat × JVal)) (rest : List Nat)
    (hwf : ∀ kv ∈ kvs, wfStr kv.1 ∧ wfVal kv.2) :
    parseTop (encTop kvs ++ rest) = some (kvs, rest) := by
  cases kvs with
  | nil => rfl
  | cons kv tail =>
    obtain ⟨k, v⟩ := kv
    have hhead : ∃ body, joinSep [44] (((k, v) :: tail).map encKV) = 34 :: body := by
      cases tail with
      | nil => exact ⟨(k ++ [34]) ++ 58 :: encVal v, by simp [joinSep, encKV]⟩
      | cons kv2 t2 =>
        refine ⟨(k ++ [34]) ++ (58 :: encVal v ++
          (44 :: joinSep [44] ((kv2 :: t2).map encKV))), ?_⟩
        show encKV (k, v) ++ [44] ++ joinSep [44] ((kv2 :: t2).map encKV) = _
        simp [encKV]
    obtain ⟨body, hbody⟩ := hhead
    have hform : encTop ((k, v) :: tail) ++ rest =
        123 :: (joinSep [44] (((k, v) :: tail).map encKV) ++ 125 :: rest) := by
      show (123 :: joinSep [44] (((k, v) :: tail).map encKV) ++ [125]) ++ rest = _
      simp
    rw [hform]
    have hlen : ((k, v) :: tail).length ≤
        (joinSep [44] (((k, v) :: tail).map encKV) ++ 125 :: rest).length := by
      have := joinSep_length_ge (((k, v) :: tail).map encKV)
      simp only [List.length_append, List.length_cons, List.length_map] at this ⊢
      omega
    have hitems := parseTopItems_enc ((k, v) :: tail)
      ((joinSep [44] (((k, v) :: tail).map encKV) ++ 125 :: rest).length) rest
      (by simp) hlen hwf
    rw [hbody] at hitems ⊢
    unfold parseTop
    split
    · rename_i heq
      rw [List.cons.injEq] at heq
      obtain ⟨-, heq2⟩ := heq
      injection heq2 with hh _
      omega
    · rename_i r heq
      rw [List.cons.injEq] at heq
      obtain ⟨-, heq2⟩ := heq
      rw [← heq2]
      exact hitems
    · rename_i hno1 hno2
      exact (hno2 _ rfl).elim

/-- `json.loads` inverts `json.dumps` on well-formed payload dicts. -/
theorem jloads_encTop (kvs : List (List Nat × JVal))
    (hwf : ∀ kv ∈ kvs, wfStr kv.1 ∧ wfVal kv.2) :
    jloads (encTop kvs) = some kvs := by
  have h := parseTop_enc kvs [] hwf
  rw [List.append_nil] at h
  unfold jloads
  rw [h]

/-- `rsplitLast` finds no split when the separator is absent. -/
theorem rsplitLast_not_mem : ∀ (l : List Nat) (sep : Nat), sep ∉ l →
    rsplitLast l sep = none := by
  intro l sep
  induction l with
  | nil => intro h; rfl
  | cons x xs ih =>
    intro h
    have hx : x ≠ sep := fun hx => h (by rw [hx]; exact List.mem_cons_self sep xs)
    have hxs : sep ∉ xs := fun hm => h (List.mem_cons_of_mem x hm)
    unfold rsplitLast
    rw [ih hxs]
    simp [hx]

/-- `rsplitLast` splits at the last separator occurrence. -/
theorem rsplitLast_append (a b : List Nat) (sep : Nat) (hb : sep ∉ b) :
    rsplitLast (a ++ sep :: b) sep = some (a, b) := by
  induction a with
  | nil =>
    show rsplitLast (sep :: b) sep = some ([], b)
    unfold rsplitLast
    rw [rsplitLast_not_mem b sep hb]
    simp
  | cons x xs ih =>
    show rsplitLast (x :: (xs ++ sep :: b)) sep = some (x :: xs, b)
    unfold rsplitLast
    rw [ih]

/-- Hex digit bytes are below 124 (never the `|` separator). -/
theorem hexDigit_lt (x : Nat) (hx : x < 16) : hexDigit x < 124 := by
  unfold hexDigit
  split <;> omega

/-- The separator byte never occurs in a CRC hex rendering. -/
theorem sep_not_mem_hexBytes (x : Nat) : 124 ∉ hexBytes x := by
  have hall : ∀ z : Nat, hexDigit (z % 16) ≠ 124 := by
    intro z
    have := hexDigit_lt (z % 16) (Nat.mod_lt z (by norm_num))
    omega
  intro hmem
  unfold hexBytes at hmem
  simp only [List.mem_cons, List.not_mem_nil, or_false] at hmem
  rcases hmem with h | h | h | h | h | h | h | h <;> exact hall _ h.symm

/-- `hexDigit` is injective below 16. -/
theorem hexDigit_inj (x y : Nat) (hx : x < 16) (hy : y < 16)
    (h : hexDigit x = hexDigit y) : x = y := by
  unfold hexDigit at h
  split at h <;> split at h <;> omega

/-- The 8-hex-digit rendering is injective on 32-bit values. -/
theorem hexBytes_inj (x y : Nat) (hx : x < 2 ^ 32) (hy : y < 2 ^ 32)
    (h : hexBytes x = hexBytes y) : x = y := by
  unfold hexBytes at h
  simp only [List.cons.injEq, and_true] at h
  have h16 : ∀ z : Nat, z % 16 < 16 := fun z => Nat.mod_lt z (by norm_num)
  obtain ⟨h1, h2, h3, h4, h5, h6, h7, h8⟩ := h
  have e1 := hexDigit_inj _ _ (h16 _) (h16 _) h1
  have e2 := hexDigit_inj _ _ (h16 _) (h16 _) h2
  have e3 := hexDigit_inj _ _ (h16 _) (h16 _) h3
  have e4 := hexDigit_inj _ _ (h16 _) (h16 _) h4
  have e5 := hexDigit_inj _ _ (h16 _) (h16 _) h5
  have e6 := hexDigit_inj _ _ (h16 _) (h16 _) h6
  have e7 := hexDigit_inj _ _ (h16 _) (h16 _) h7
  have e8 := hexDigit_inj _ _ (h16 _) (h16 _) h8
  simp only [Nat.shiftRight_eq_div_pow] at e1 e2 e3 e4 e5 e6 e7
  omega

/-- One CRC bit-round stays within 32 bits. -/
theorem crcRound_lt (c : Nat) (hc : c < 2 ^ 32) : crcRound c < 2 ^ 32 := by
  unfold crcRound
  have h1 : c >>> 1 < 2 ^ 32 := by
    rw [Nat.shiftRight_eq_div_pow]
    omega
  split
  · exact Nat.xor_lt_two_pow h1 (by norm_num [crcPoly])
  · simpa using h1

/-- One CRC bit-round is injective on 32-bit states: the polynomial's
top bit is set while a shifted 31-bit value's is not, so the parity is
recoverable from the output. -/
theorem crcRound_inj (a b : Nat) (ha : a < 2 ^ 32) (hb : b < 2 ^ 32)
    (h : crcRound a = crcRound b) : a = b := by
  have h32 : (2 : Nat) ^ (1 + 31) = 2 ^ 32 := by norm_num
  have hta : a.testBit (1 + 31) = false := Nat.testBit_lt_two_pow (by omega)
  have htb : b.testBit (1 + 31) = false := Nat.testBit_lt_two_pow (by omega)
  have hpoly : Nat.testBit crcPoly 31 = true := by decide
  unfold crcRound at h
  by_cases hpa : a % 2 = 1 <;> by_cases hpb : b % 2 = 1
  · rw [if_pos hpa, if_pos hpb] at h
    have h2 : a >>> 1 = b >>> 1 := by
      have := congrArg (fun x => x ^^^ crcPoly) h
      simpa [Nat.xor_cancel_right] using this
    rw [Nat.shiftRight_eq_div_pow] at h2
    omega
  · exfalso
    rw [if_pos hpa, if_neg hpb, Nat.xor_zero] at h
    have ht := congrArg (fun x => Nat.testBit x 31) h
    simp only [Nat.testBit_xor, Nat.testBit_shiftRight] at ht
    rw [hta, htb, hpoly] at ht
    simp at ht
  · exfalso
    rw [if_neg hpa, if_pos hpb, Nat.xor_zero] at h
    have ht := congrArg (fun x => Nat.testBit x 31) h
    simp only [Nat.testBit_xor, Nat.testBit_shiftRight] at ht
    rw [hta, htb, hpoly] at ht
    simp at ht
  · rw [if_neg hpa, if_neg hpb, Nat.xor_zero, Nat.xor_zero] at h
    rw [Nat.shiftRight_eq_div_pow] at h
    omega

/-- Iterated CRC bit-rounds stay within 32 bits. -/
theorem crcRoundIter_lt (k c : Nat) (hc : c < 2 ^ 32) : crcRound^[k] c < 2 ^ 32 := by
  induction k generalizing c with
  | zero => simpa using hc
  | succ m ih =>
    rw [Function.iterate_succ_apply]
    exact ih (crcRound c) (crcRound_lt c hc)

/-- Iterated CRC bit-rounds are injective on 32-bit states. -/
theorem crcRoundIter_inj (k : Nat) : ∀ (a b : Nat), a < 2 ^ 32 → b < 2 ^ 32 →
    crcRound^[k] a = crcRound^[k] b → a = b := by
  induction k with
  | zero => intro a b _ _ h; simpa using h
  | succ m ih =>
    intro a b ha hb h
    rw [Function.iterate_succ_apply, Function.iterate_succ_apply] at h
    exact crcRound_inj a b ha hb
      (ih (crcRound a) (crcRound b) (crcRound_lt a ha) (crcRound_lt b hb) h)

/-- Folding one byte keeps the CRC state within 32 bits. -/
theorem crcByte_lt (c b : Nat) (hc : c < 2 ^ 32) (hb : b < 2 ^ 32) :
    crcByte c b < 2 ^ 32 :=
  crcRoundIter_lt 8 _ (Nat.xor_lt_two_pow hc hb)

/-- Folding the same byte into different 32-bit states keeps them
different. -/
theorem crcByte_inj (b c1 c2 : Nat) (hb : b < 2 ^ 32) (h1 : c1 < 2 ^ 32)
    (h2 : c2 < 2 ^ 32) (h : crcByte c1 b = crcByte c2 b) : c1 = c2 := by
  have hx := crcRoundIter_inj 8 (c1 ^^^ b) (c2 ^^^ b)
    (Nat.xor_lt_two_pow h1 hb) (Nat.xor_lt_two_pow h2 hb) h
  have := congrArg (fun x => x ^^^ b) hx
  simpa [Nat.xor_cancel_right] using this

/-- Folding a byte list keeps the CRC state within 32 bits. -/
theorem crcFold_lt : ∀ (l : List Nat) (c : Nat), (∀ x ∈ l, x < 2 ^ 32) →
    c < 2 ^ 32 → l.foldl crcByte c < 2 ^ 32 := by
  intro l
  induction l with
  | nil => intro c _ hc; simpa using hc
  | cons x xs ih =>
    intro c hl hc
    rw [List.foldl_cons]
    exact ih (crcByte c x) (fun y hy => hl y (List.mem_cons_of_mem x hy))
      (crcByte_lt c x hc (hl x (List.mem_cons_self x xs)))

/-- Folding the same byte list from different 32-bit states keeps them
different. -/
theorem crcFold_inj : ∀ (l : List Nat) (c1 c2 : Nat), (∀ x ∈ l, x < 2 ^ 32) →
    c1 < 2 ^ 32 → c2 < 2 ^ 32 →
    l.foldl crcByte c1 = l.foldl crcByte c2 → c1 = c2 := by
  intro l
  induction l with
  | nil => intro c1 c2 _ _ _ h; simpa using h
  | cons x xs ih =>
    intro c1 c2 hl h1 h2 h
    rw [List.foldl_cons, List.foldl_cons] at h
    have hx : x < 2 ^ 32 := hl x (List.mem_cons_self x xs)
    exact crcByte_inj x c1 c2 hx h1 h2
      (ih (crcByte c1 x) (crcByte c2 x) (fun y hy => hl y (List.mem_cons_of_mem x hy))
        (crcByte_lt c1 x h1 hx) (crcByte_lt c2 x h2 hx) h)

/-- The CRC32 of any byte list is a 32-bit value. -/
theorem crc32_lt (l : List Nat) (hl : ∀ x ∈ l, x < 2 ^ 32) : crc32 l < 2 ^ 32 := by
  unfold crc32
  exact Nat.xor_lt_two_pow (crcFold_lt l 0xFFFFFFFF hl (by norm_num)) (by norm_num)

/-- Changing one byte of the data changes the CRC32: the state after
the common prefix differs by the byte change, every bit-round is
injective, and the suffix fold and final mask preserve the
difference. -/
theorem crc32_byte_change_ne (pre suf : List Nat) (b b2 : Nat)
    (hpre : ∀ x ∈ pre, x < 2 ^ 32) (hsuf : ∀ x ∈ suf, x < 2 ^ 32)
    (hb : b < 2 ^ 32) (hb2 : b2 < 2 ^ 32) (hne : b ≠ b2) :
    crc32 (pre ++ b :: suf) ≠ crc32 (pre ++ b2 :: suf) := by
  intro h
  apply hne
  unfold crc32 at h
  have hxor := congrArg (fun x => x ^^^ 0xFFFFFFFF) h
  simp only [Nat.xor_cancel_right] at hxor
  rw [List.foldl_append, List.foldl_append, List.foldl_cons, List.foldl_cons] at hxor
  have hs : pre.foldl crcByte 0xFFFFFFFF < 2 ^ 32 :=
    crcFold_lt pre 0xFFFFFFFF hpre (by norm_num)
  have hstep := crcFold_inj suf _ _ hsuf
    (crcByte_lt _ b hs hb) (crcByte_lt _ b2 hs hb2) hxor
  have hx := crcRoundIter_inj 8 _ _
    (Nat.xor_lt_two_pow hs hb) (Nat.xor_lt_two_pow hs hb2) hstep
  have := congrArg (fun x => (pre.foldl crcByte 0xFFFFFFFF) ^^^ x) hx
  simpa [Nat.xor_cancel_left] using this

/-- `parse_packet` on an authentic wire datagram: the split recovers
the payload and hex digits exactly, and the CRC check passes. -/
theorem parsePacket_wire (payloadBytes : List Nat) :
    parsePacket (payloadBytes ++ 124 :: hexBytes (crc32 payloadBytes)) =
      (jloads payloadBytes).map (fun v => (v, hexBytes (crc32 payloadBytes))) := by
  unfold parsePacket
  rw [rsplitLast_append _ _ 124 (sep_not_mem_hexBytes _)]
  simp

/-- Last-wins lookup as a fold from an arbitrary accumulator. -/
theorem dlookup_foldl (k : List Nat) : ∀ (d : List (List Nat × JVal)) (acc : Option JVal),
    d.foldl (fun acc kv => if kv.1 = k then some kv.2 else acc) acc =
      match dlookup d k with
      | some v => some v
      | none => acc := by
  intro d
  induction d with
  | nil => intro acc; simp [dlookup]
  | cons kv rest ih =>
    intro acc
    have hL : dlookup (kv :: rest) k =
        rest.foldl (fun acc kv => if kv.1 = k then some kv.2 else acc)
          (if kv.1 = k then some kv.2 else none) := rfl
    rw [List.foldl_cons, ih, hL, ih]
    by_cases hk : kv.1 = k <;> cases hdr : dlookup rest k <;> simp [hk, hdr]

/-- Lookup across an append prefers the later (right) bindings. -/
theorem dlookup_append (d1 d2 : List (List Nat × JVal)) (k : List Nat) :
    dlookup (d1 ++ d2) k =
      match dlookup d2 k with
      | some v => some v
      | none => dlookup d1 k := by
  unfold dlookup
  rw [List.foldl_append]
  rw [show d1.foldl (fun acc kv => if kv.1 = k then some kv.2 else acc) none
      = dlookup d1 k from rfl]
  exact dlookup_foldl k d2 (dlookup d1 k)

/-- Lookup misses when no binding carries the key. -/
theorem dlookup_eq_none (k : List Nat) : ∀ (d : List (List Nat × JVal)),
    (∀ e ∈ d, e.1 ≠ k) → dlookup d k = none := by
  intro d
  induction d with
  | nil => intro h; rfl
  | cons kv rest ih =>
    intro h
    have hL : dlookup (kv :: rest) k =
        rest.foldl (fun acc kv => if kv.1 = k then some kv.2 else acc)
          (if kv.1 = k then some kv.2 else none) := rfl
    rw [hL, if_neg (h kv (List.mem_cons_self kv rest))]
    exact ih (fun e he => h e (List.mem_cons_of_mem kv he))

/-- `dict.update` with fresh, pairwise-distinct keys appends in
iteration order. -/
theorem dictUpdate_fresh : ∀ (upd d : List (List Nat × JVal)),
    (∀ kv ∈ upd, ∀ e ∈ d, e.1 ≠ kv.1) → (upd.map Prod.fst).Nodup →
    dictUpdate d upd = d ++ upd := by
  intro upd
  induction upd with
  | nil => intro d _ _; simp [dictUpdate]
  | cons kv rest ih =>
    intro d hfresh hnodup
    have hany : (d.any (fun e => e.1 = kv.1)) = false := by
      rw [List.any_eq_false]
      intro e he
      simpa using hfresh kv (List.mem_cons_self kv rest) e he
    have hstep : dictUpdate d (kv :: rest) = dictUpdate (d ++ [kv]) rest := by
      unfold dictUpdate
      rw [List.foldl_cons]
      simp only [hany]
      rfl
    rw [hstep, ih (d ++ [kv]) ?fresh ?nodup]
    · simp
    case fresh =>
      intro kv2 h2 e he
      rcases List.mem_append.mp he with hd | hk
      · exact hfresh kv2 (List.mem_cons_of_mem kv h2) e hd
      · rw [List.mem_singleton.mp hk]
        intro hcontra
        have : kv.1 ∈ rest.map Prod.fst := by
          rw [hcontra]
          exact List.mem_map_of_mem Prod.fst h2
        simp only [List.map_cons, List.nodup_cons] at hnodup
        exact hnodup.1 this
    case nodup =>
      simp only [List.map_cons, List.nodup_cons] at hnodup
      exact hnodup.2

/-- Every packet field key is an escape-free ASCII string. -/
theorem packetKeys_wf : ∀ k ∈ packetKeys, wfStr k := by decide

/-- Every binding of `asdict(self)` carries one of the 13 field keys. -/
theorem asdict_keys_mem (p : Packet) : ∀ e ∈ asdictPacket p, e.1 ∈ packetKeys := by
  intro e he
  simp only [asdictPacket, List.mem_cons, List.not_mem_nil, or_false] at he
  rcases he with rfl|rfl|rfl|rfl|rfl|rfl|rfl|rfl|rfl|rfl|rfl|rfl|rfl <;> simp [packetKeys]

/-- With fresh, pairwise-distinct extra keys, the merge appends the
extra entries after the 13 field bindings. -/
theorem mergedPayload_eq (p : Packet)
    (hdisj : ∀ kvs, p.extra = some kvs → ∀ kv ∈ kvs, kv.1 ∉ packetKeys)
    (hnodup : ∀ kvs, p.extra = some kvs → (kvs.map Prod.fst).Nodup) :
    mergedPayload p = asdictPacket p ++ extraJ p := by
  unfold mergedPayload extraJ
  cases hpe : p.extra with
  | none => simp
  | some kvs =>
    show (if kvs = [] then asdictPacket p
        else dictUpdate (asdictPacket p) (kvs.map (fun kv => (kv.1, JVal.atom kv.2)))) =
      asdictPacket p ++ (if kvs = [] then []
        else kvs.map (fun kv => (kv.1, JVal.atom kv.2)))
    by_cases hkvs : kvs = []
    · simp [hkvs]
    · rw [if_neg hkvs, if_neg hkvs]
      rw [dictUpdate_fresh (kvs.map (fun kv => (kv.1, JVal.atom kv.2))) (asdictPacket p) ?fresh ?nodup]
      case fresh =>
        intro kv hkv e he
        obtain ⟨kv0, hkv0, rfl⟩ := List.mem_map.mp hkv
        intro hcontra
        exact hdisj kvs hpe kv0 hkv0 (hcontra ▸ asdict_keys_mem p e he)
      case nodup =>
        have hn := hnodup kvs hpe
        rw [List.map_map]
        simpa [Function.comp] using hn

/-- The merged payload is well-formed when the extra dict is. -/
theorem mergedPayload_wf (p : Packet)
    (hwf : ∀ kvs, p.extra = some kvs → ∀ kv ∈ kvs, wfStr kv.1 ∧ wfAtom kv.2) :
    ∀ kv ∈ asdictPacket p ++ extraJ p, wfStr kv.1 ∧ wfVal kv.2 := by
  intro kv hkv
  rcases List.mem_append.mp hkv with hbase | hex
  · refine ⟨packetKeys_wf _ (asdict_keys_mem p kv hbase), ?_⟩
    simp only [asdictPacket, List.mem_cons, List.not_mem_nil, or_false] at hbase
    rcases hbase with rfl|rfl|rfl|rfl|rfl|rfl|rfl|rfl|rfl|rfl|rfl|rfl|rfl
    · trivial
    · trivial
    · trivial
    · trivial
    · trivial
    · trivial
    · trivial
    · trivial
    · trivial
    · trivial
    · trivial
    · trivial
    · show wfVal (match p.extra with
        | none => JVal.atom JAtom.jnull
        | some kvs => JVal.jobj kvs)
      cases hpe : p.extra with
      | none => trivial
      | some kvs =>
        show wfVal (JVal.jobj kvs)
        exact fun kv2 h2 => hwf kvs hpe kv2 h2
  · revert hex
    unfold extraJ
    cases hpe : p.extra with
    | none =>
      intro hex
      simp at hex
    | some kvs =>
      show kv ∈ (if kvs = [] then []
          else kvs.map (fun kv => (kv.1, JVal.atom kv.2))) → wfStr kv.1 ∧ wfVal kv.2
      by_cases hkvs : kvs = []
      · rw [if_pos hkvs]
        intro hex
        simp at hex
      · rw [if_neg hkvs]
        intro hex
        obtain ⟨kv0, hkv0, rfl⟩ := List.mem_map.mp hex
        exact ⟨(hwf kvs hpe kv0 hkv0).1, (hwf kvs hpe kv0 hkv0).2⟩

/-- C2 (amended).  Encoding a packet with `to_payload` and decoding the
datagram through `parse_packet` and the receiver's `Frame`
reconstruction restores every data field: `node_id`, `seq`, `present`,
the five lists and `dir_conf` are the originals, `timestamp` is
`ts_us / 1e6`, and `total_energy` is the merged extra's
`total_energy` entry when present (else the `mic_rms` sum); the frame's
`extra` field, however, is the entire decoded flat payload — the 13
field bindings followed by the extra entries — not the original
`extra` dict alone.  Hypotheses: the extra keys are escape-free,
pairwise distinct and disjoint from the 13 field names, and any
`total_energy` extra entry is numeric. -/
theorem C2_roundtrip_data_fields (p : Packet)
    (hwf : ∀ kvs, p.extra = some kvs → ∀ kv ∈ kvs, wfStr kv.1 ∧ wfAtom kv.2)
    (hdisj : ∀ kvs, p.extra = some kvs → ∀ kv ∈ kvs, kv.1 ∉ packetKeys)
    (hnodup : ∀ kvs, p.extra = some kvs → (kvs.map Prod.fst).Nodup)
    (hte : ∀ v, dlookup (extraJ p) (bsOf "total_energy") = some v →
      ∃ t, v = JVal.atom (JAtom.jint t)) :
    (parsePacket (toPayload p)).bind (fun pr => buildFrame pr.1) =
      some { node_id := p.node_id, seq := p.seq, timestamp := (p.ts_us : ℚ) / 1000000,
             present := p.present, mic_rms := p.mic_rms, noise_rms := p.noise_rms,
             crest := p.crest, bandpower := p.bandpower, dir_local := p.dir_local,
             dir_conf := p.dir_conf,
             total_energy := (match dlookup (extraJ p) (bsOf "total_energy") with
               | some (JVal.atom (JAtom.jint t)) => t
               | _ => p.mic_rms.sum),
             extra := asdictPacket p ++ extraJ p } := by
  have hmerge := mergedPayload_eq p hdisj hnodup
  have hwfm := mergedPayload_wf p hwf
  have htop : jloads (encTop (mergedPayload p)) = some (mergedPayload p) := by
    rw [hmerge]
    exact jloads_encTop _ hwfm
  have hparse : parsePacket (toPayload p) =
      some (mergedPayload p, hexBytes (crc32 (encTop (mergedPayload p)))) := by
    unfold toPayload
    rw [parsePacket_wire, htop]
    rfl
  rw [hparse, Option.some_bind, hmerge]
  have hnone : ∀ k, k ∈ packetKeys → dlookup (extraJ p) k = none := by
    intro k hk
    apply dlookup_eq_none
    intro e he
    revert he
    unfold extraJ
    cases hpe : p.extra with
    | none =>
      intro he
      simp at he
    | some kvs =>
      show e ∈ (if kvs = [] then []
          else kvs.map (fun kv => (kv.1, JVal.atom kv.2))) → e.1 ≠ k
      by_cases hkvs : kvs = []
      · rw [if_pos hkvs]
        intro he
        simp at he
      · rw [if_neg hkvs]
        intro he
        obtain ⟨kv0, hkv0, rfl⟩ := List.mem_map.mp he
        intro hcontra
        exact hdisj kvs hpe kv0 hkv0 (hcontra ▸ hk)
  have h1 : dlookup (asdictPacket p ++ extraJ p) (bsOf "node_id")
      = some (JVal.atom (JAtom.jint p.node_id)) := by
    rw [dlookup_append, hnone _ (by decide)]
    rfl
  have h2 : dlookup (asdictPacket p ++ extraJ p) (bsOf "seq")
      = some (JVal.atom (JAtom.jint p.seq)) := by
    rw [dlookup_append, hnone _ (by decide)]
    rfl
  have h3 : dlookup (asdictPacket p ++ extraJ p) (bsOf "ts_us")
      = some (JVal.atom (JAtom.jint p.ts_us)) := by
    rw [dlookup_append, hnone _ (by decide)]
    rfl
  have h4 : dlookup (asdictPacket p ++ extraJ p) (bsOf "present")
      = some (JVal.atom (JAtom.jbool p.present)) := by
    rw [dlookup_append, hnone _ (by decide)]
    rfl
  have h5 : dlookup (asdictPacket p ++ extraJ p) (bsOf "mic_rms")
      = some (JVal.atom (JAtom.jarr p.mic_rms)) := by
    rw [dlookup_append, hnone _ (by decide)]
    rfl
  have h6 : dlookup (asdictPacket p ++ extraJ p) (bsOf "noise_rms")
      = some (JVal.atom (JAtom.jarr p.noise_rms)) := by
    rw [dlookup_append, hnone _ (by decide)]
    rfl
  have h7 : dlookup (asdictPacket p ++ extraJ p) (bsOf "crest")
      = some (JVal.atom (JAtom.jarr p.crest)) := by
    rw [dlookup_append, hnone _ (by decide)]
    rfl
  have h8 : dlookup (asdictPacket p ++ extraJ p) (bsOf "bandpower")
      = some (JVal.atom (JAtom.jarr p.bandpower)) := by
    rw [dlookup_append, hnone _ (by decide)]
    rfl
  have h9 : dlookup (asdictPacket p ++ extraJ p) (bsOf "dir_local")
      = some (JVal.atom (JAtom.jarr p.dir_local)) := by
    rw [dlookup_append, hnone _ (by decide)]
    rfl
  have h10 : dlookup (asdictPacket p ++ extraJ p) (bsOf "dir_conf")
      = some (JVal.atom (JAtom.jint p.dir_conf)) := by
    rw [dlookup_append, hnone _ (by decide)]
    rfl
  have htem : dlookup (asdictPacket p ++ extraJ p) (bsOf "total_energy")
      = dlookup (extraJ p) (bsOf "total_energy") := by
    rw [dlookup_append]
    cases hv : dlookup (extraJ p) (bsOf "total_energy") with
    | none => rfl
    | some v => rfl
  cases hv : dlookup (extraJ p) (bsOf "total_energy") with
  | none =>
    simp only [buildFrame, Option.bind_eq_bind, h1, h2, h3, h4, h5, h6, h7, h8, h9, h10,
      htem, hv, asInt, asBoolD, asArrD, asIntD, Option.some_bind]
  | some v =>
    obtain ⟨t, rfl⟩ := hte v hv
    simp only [buildFrame, Option.bind_eq_bind, h1, h2, h3, h4, h5, h6, h7, h8, h9, h10,
      htem, hv, asInt, asBoolD, asArrD, asIntD, Option.some_bind]

/-- C2 counterexample to the literal claim.  The packet `pEx` carries the
single extra entry `"h": 5`; it decodes successfully (the `node_id`
comes back), but the reconstructed frame's `extra` field is the whole
decoded payload, not the original extra dict alone. -/
theorem C2_roundtrip_extra_cex :
    ((parsePacket (toPayload pEx)).bind (fun pr => buildFrame pr.1)).map
        (fun f => f.node_id) = some 1 ∧
    ((parsePacket (toPayload pEx)).bind (fun pr => buildFrame pr.1)).map
        (fun f => f.extra) ≠ some [(bsOf "h", JVal.atom (JAtom.jint 5))] := by
  have hparse : parsePacket (toPayload pEx) =
      some (mergedPayload pEx, hexBytes (crc32 (encTop (mergedPayload pEx)))) := by
    unfold toPayload
    rw [parsePacket_wire, jloads_encTop _ (by decide)]
    rfl
  rw [hparse]
  decide

/-- C2 witness: the amended round-trip theorem applied at the concrete
packet `pEx`, whose one extra entry is escape-free, fresh and not named
`total_energy`. -/
theorem C2_roundtrip_data_fields_witness :
    (∀ kvs, pEx.extra = some kvs → ∀ kv ∈ kvs, wfStr kv.1 ∧ wfAtom kv.2) ∧
    (∀ kvs, pEx.extra = some kvs → ∀ kv ∈ kvs, kv.1 ∉ packetKeys) ∧
    (∀ kvs, pEx.extra = some kvs → (kvs.map Prod.fst).Nodup) ∧
    (∀ v, dlookup (extraJ pEx) (bsOf "total_energy") = some v →
      ∃ t, v = JVal.atom (JAtom.jint t)) ∧
    (parsePacket (toPayload pEx)).bind (fun pr => buildFrame pr.1) =
      some { node_id := pEx.node_id, seq := pEx.seq,
             timestamp := (pEx.ts_us : ℚ) / 1000000,
             present := pEx.present, mic_rms := pEx.mic_rms,
             noise_rms := pEx.noise_rms, crest := pEx.crest,
             bandpower := pEx.bandpower, dir_local := pEx.dir_local,
             dir_conf := pEx.dir_conf,
             total_energy := (match dlookup (extraJ pEx) (bsOf "total_energy") with
               | some (JVal.atom (JAtom.jint t)) => t
               | _ => pEx.mic_rms.sum),
             extra := asdictPacket pEx ++ extraJ pEx } := by
  have hwf : ∀ kvs, pEx.extra = some kvs → ∀ kv ∈ kvs, wfStr kv.1 ∧ wfAtom kv.2 := by
    intro kvs h
    cases h
    decide
  have hdisj : ∀ kvs, pEx.extra = some kvs → ∀ kv ∈ kvs, kv.1 ∉ packetKeys := by
    intro kvs h
    cases h
    decide
  have hnodup : ∀ kvs, pEx.extra = some kvs → (kvs.map Prod.fst).Nodup := by
    intro kvs h
    cases h
    decide
  have hte : ∀ v, dlookup (extraJ pEx) (bsOf "total_energy") = some v →
      ∃ t, v = JVal.atom (JAtom.jint t) := by
    intro v h
    exact Option.noConfusion
      ((show dlookup (extraJ pEx) (bsOf "total_energy") = none from rfl) ▸ h)
  exact ⟨hwf, hdisj, hnodup, hte, C2_roundtrip_data_fields pEx hwf hdisj hnodup hte⟩

/-- C5.  A datagram that fails any stage — no `0x7C` separator, a CRC
mismatch between the recomputed CRC32 of the portion before the last
separator and the trailing hex digits, or a payload the `Frame`
reconstruction rejects — leaves the `FrameStore` untouched; and
flipping any single bit of the serialized payload portion of an
encoded packet makes `parse_packet` reject it, so the flipped datagram
is dropped too. -/
theorem C5_corrupt_datagram_dropped (store : FrameStore) (now : ℚ)
    (data payload : List Nat) (i j : Nat)
    (hdrop : rsplitLast data 124 = none
      ∨ (∃ p r, rsplitLast data 124 = some (p, r) ∧ hexBytes (crc32 p) ≠ r)
      ∨ (∃ p r, parsePacket data = some (p, r) ∧ buildFrame p = none))
    (hbytes : ∀ x ∈ payload, x < 256) (hi : i < payload.length) (hj : j < 8) :
    datagramReceived store data now = store ∧
    parsePacket (flipBit payload i j ++ 124 :: hexBytes (crc32 payload)) = none ∧
    datagramReceived store (flipBit payload i j ++ 124 :: hexBytes (crc32 payload)) now
      = store := by
  have hlt : ∀ x ∈ payload, x < 2 ^ 32 := by
    intro x hx
    exact lt_trans (hbytes x hx) (by norm_num)
  have hflip : parsePacket (flipBit payload i j ++ 124 :: hexBytes (crc32 payload))
      = none := by
    unfold parsePacket
    rw [rsplitLast_append _ _ _ (sep_not_mem_hexBytes _)]
    have hcrcne : crc32 (flipBit payload i j) ≠ crc32 payload := by
      have hdecomp : payload = payload.take i ++ payload.getD i 0 :: payload.drop (i + 1) := by
        conv_lhs => rw [← List.take_append_drop i payload]
        rw [List.drop_eq_getElem_cons hi, List.getD_eq_getElem payload 0 hi]
      have hpre : ∀ x ∈ payload.take i, x < 2 ^ 32 := fun x hx =>
        hlt x (List.mem_of_mem_take hx)
      have hsuf : ∀ x ∈ payload.drop (i + 1), x < 2 ^ 32 := fun x hx =>
        hlt x (List.mem_of_mem_drop hx)
      have hb0 : payload.getD i 0 < 2 ^ 32 := by
        rw [List.getD_eq_getElem payload 0 hi]
        exact hlt _ (List.getElem_mem hi)
      have hbf : payload.getD i 0 ^^^ 2 ^ j < 2 ^ 32 := by
        apply Nat.xor_lt_two_pow hb0
        calc 2 ^ j ≤ 2 ^ 7 := Nat.pow_le_pow_right (by norm_num) (by omega)
          _ < 2 ^ 32 := by norm_num
      have hne : payload.getD i 0 ^^^ 2 ^ j ≠ payload.getD i 0 := by
        intro hcontra
        have ht : (payload.getD i 0 ^^^ 2 ^ j).testBit j
            = !((payload.getD i 0).testBit j) := by
          simp [Nat.testBit_xor, Nat.testBit_two_pow_self]
        rw [hcontra] at ht
        simp at ht
      have := crc32_byte_change_ne (payload.take i) (payload.drop (i + 1))
        (payload.getD i 0 ^^^ 2 ^ j) (payload.getD i 0) hpre hsuf hbf hb0 hne
      unfold flipBit
      intro hcontra
      exact this (hcontra.trans (congrArg crc32 hdecomp))
    show (if hexBytes (crc32 (flipBit payload i j)) = hexBytes (crc32 payload) then
        Option.map (fun v => (v, hexBytes (crc32 payload))) (jloads (flipBit payload i j))
      else none) = none
    rw [if_neg]
    intro hcontra
    have hfl : ∀ x ∈ flipBit payload i j, x < 2 ^ 32 := by
      intro x hx
      unfold flipBit at hx
      rcases List.mem_append.mp hx with hx | hx
      · exact hlt x (List.mem_of_mem_take hx)
      · rcases List.mem_cons.mp hx with rfl | hx
        · apply Nat.xor_lt_two_pow
          · rw [List.getD_eq_getElem payload 0 hi]
            exact hlt _ (List.getElem_mem hi)
          · calc 2 ^ j ≤ 2 ^ 7 := Nat.pow_le_pow_right (by norm_num) (by omega)
              _ < 2 ^ 32 := by norm_num
        · exact hlt x (List.mem_of_mem_drop hx)
    exact hcrcne (hexBytes_inj _ _ (crc32_lt _ hfl) (crc32_lt _ hlt) hcontra)
  refine ⟨?_, hflip, by simp [datagramReceived, hflip]⟩
  rcases hdrop with hnone | ⟨p, r, hsp, hne⟩ | ⟨p, r, hsp, hbf⟩
  · have hpp : parsePacket data = none := by
      unfold parsePacket
      rw [hnone]
    simp [datagramReceived, hpp]
  · have hpp : parsePacket data = none := by
      unfold parsePacket
      rw [hsp]
      show (if hexBytes (crc32 p) = r then
          Option.map (fun v => (v, r)) (jloads p) else none) = none
      rw [if_neg hne]
    simp [datagramReceived, hpp]
  · simp [datagramReceived, hsp, hbf]

/-- C5 witness: a separator-free datagram is dropped from the concrete
store, and flipping bit 0 of the single payload byte `97` of an encoded
packet is rejected by `parse_packet`. -/
theorem C5_corrupt_datagram_dropped_witness :
    rsplitLast ([] : List Nat) 124 = none ∧
    (∀ x ∈ [97], x < 256) ∧ 0 < [97].length ∧ 0 < 8 ∧
    (datagramReceived storeEx [] 0 = storeEx ∧
     parsePacket (flipBit [97] 0 0 ++ 124 :: hexBytes (crc32 [97])) = none ∧
     datagramReceived storeEx (flipBit [97] 0 0 ++ 124 :: hexBytes (crc32 [97])) 0
       = storeEx) :=
  ⟨rfl, by decide, by decide, by decide,
   C5_corrupt_datagram_dropped storeEx 0 [] [97] 0 0 (Or.inl rfl)
     (by decide) (by decide) (by decide)⟩
